import Mathlib

/-!
A line-oriented key-value store: parser, storage layer, memory engine, dispatcher

Shallow embedding of the request pipeline of the repository

* `internal/interfaces.go`            (errors, `Command`, the two layer interfaces)
* `internal/compute/parser/parser.go` (`parseCommand`, `isValidArgument`, ...)
* `internal/storage/engine/memory.go` (`MemoryEngine`)
* `internal/storage/storage.go`       (`defaultStorage`)
* `internal/database/database.go`     (`Database.HandleQuery`)
* `pkg/commands/commands.go`           (`ParseCommandType`, `splitWords`)

Conventions of the embedding.

* A Go `string` is a Lean `String` (a sequence of Unicode scalar values), so the
  inputs considered are the well-formed UTF-8 texts.
* A method that can touch the store takes the store and returns the store after the
  call next to its Go results (explicit state passing).  The read/write lock of the
  engine and the logger calls have no sequential effect and are left out, as is the
  `context.Context` argument, which no method looks at.
* A Go result `error` is `Except Error Unit`, a Go result `(T, error)` is
  `Except Error T`.
* `unicode.IsSpace` is spelled out from the Go library; the category tables behind
  `unicode.IsLetter` and `unicode.IsDigit` are a parameter (`Unicode`).
* `splitWords` indexes the bytes of its input: they are the UTF-8 bytes of the
  `String`.
-/

deriving instance DecidableEq for Except

namespace KV

/-! ## `internal/interfaces.go` -/

/-- The error values of the pipeline: the sentinels `ErrInvalidCommand` and
`ErrInvalidSyntax` of package `internal`, `ErrKeyNotFound` of package `storage`, and
the error `errors.New("key cannot be empty")` built by the storage layer. -/
inductive Error where
  | ErrInvalidCommand
  | ErrInvalidSyntax
  | ErrKeyNotFound
  | ErrEmptyKey
  deriving DecidableEq, Repr

/-- The struct `Command`; the Go field `Type` is spelled `Typ`. -/
structure Command where
  Typ : String
  Key : String
  Value : String
  deriving DecidableEq, Repr

/-- The interface `ComputeLayer`. -/
structure ComputeLayer where
  ProcessCommand : String → Except Error Command

/-- The interface `StorageLayer`, over a state `σ` that the implementation owns. -/
structure StorageLayer (σ : Type) where
  Set : σ → String → String → Except Error Unit × σ
  Get : σ → String → Except Error String × σ
  Delete : σ → String → Except Error Unit × σ

/-! ## The Go library functions used by the parser -/

/-- The tables behind `unicode.IsLetter` (category L) and `unicode.IsDigit`
(category Nd) of the Go library. -/
structure Unicode where
  IsLetter : Char → Bool
  IsDigit : Char → Bool

/-- Go's `unicode.IsSpace`: in Latin-1 the characters tab, line feed, vertical tab,
form feed, carriage return, space, U+0085 and U+00A0; above Latin-1 the property
White_Space: U+1680, U+2000..U+200A, U+2028, U+2029, U+202F, U+205F, U+3000. -/
def isSpace (r : Char) : Bool :=
  let n := r.toNat
  (0x09 ≤ n && n ≤ 0x0D) || n == 0x20 || n == 0x85 || n == 0xA0 || n == 0x1680 ||
    (0x2000 ≤ n && n ≤ 0x200A) || n == 0x2028 || n == 0x2029 || n == 0x202F ||
    n == 0x205F || n == 0x3000

/-- The scan of `strings.FieldsFunc`: `cur` holds, reversed, the characters of the
field that is open (empty when no field is open, Go's `start < 0`). -/
def fieldsLoop (cur : List Char) : List Char → List String
  | [] => if cur.isEmpty then [] else [String.mk cur.reverse]
  | r :: rest =>
    if isSpace r then
      if cur.isEmpty then fieldsLoop [] rest
      else String.mk cur.reverse :: fieldsLoop [] rest
    else fieldsLoop (r :: cur) rest

/-- Go's `strings.Fields`: the maximal runs of non-space characters, in order. -/
def Fields (s : String) : List String :=
  fieldsLoop [] s.data

/-! ## `internal/compute/parser/parser.go` -/

/-- The function `isPunctuation`: membership in the map literal. -/
def isPunctuation (r : Char) : Bool :=
  r == '*' || r == '/' || r == '_' || r == '.' || r == '-'

/-- The function `isValidChar`. -/
def isValidChar (unicode : Unicode) (r : Char) : Bool :=
  unicode.IsLetter r || unicode.IsDigit r || isPunctuation r

/-- The function `isValidArgument`. -/
def isValidArgument (unicode : Unicode) (arg : String) : Bool :=
  if arg.length = 0 then false
  else arg.data.all (isValidChar unicode)

/-- The argument validation at the end of `parseCommand`. -/
def validateArguments (unicode : Unicode) (cmd : Command) : Except Error Command :=
  if !isValidArgument unicode cmd.Key ||
      (cmd.Typ == "SET" && !isValidArgument unicode cmd.Value) then
    .error .ErrInvalidSyntax
  else .ok cmd

/-- The method `Parser.parseCommand`. -/
def parseCommand (unicode : Unicode) (input : String) : Except Error Command :=
  let words := Fields input
  if words.length = 0 then .error .ErrInvalidCommand
  else if words.getD 0 "" = "SET" then
    if words.length ≠ 3 then .error .ErrInvalidSyntax
    else validateArguments unicode
      { Typ := "SET", Key := words.getD 1 "", Value := words.getD 2 "" }
  else if words.getD 0 "" = "GET" then
    if words.length ≠ 2 then .error .ErrInvalidSyntax
    else validateArguments unicode { Typ := "GET", Key := words.getD 1 "", Value := "" }
  else if words.getD 0 "" = "DEL" then
    if words.length ≠ 2 then .error .ErrInvalidSyntax
    else validateArguments unicode { Typ := "DEL", Key := words.getD 1 "", Value := "" }
  else .error .ErrInvalidCommand

/-- The constructor `parser.New` with the method `ProcessCommand`. -/
def parser_New (unicode : Unicode) : ComputeLayer :=
  { ProcessCommand := parseCommand unicode }

/-! ## `internal/storage/engine/memory.go` -/

/-- The struct `MemoryEngine`: the Go map `store`. -/
structure MemoryEngine where
  store : Finmap (fun _ : String => String)
  deriving DecidableEq

/-- The constructor `NewMemoryEngine`. -/
def NewMemoryEngine : MemoryEngine :=
  { store := ∅ }

/-- The method `MemoryEngine.Set`. -/
def MemoryEngine.Set (e : MemoryEngine) (key value : String) : MemoryEngine :=
  if key = "" then e
  else { store := e.store.insert key value }

/-- The method `MemoryEngine.Get`: the value and the presence flag, and the engine
after the call. -/
def MemoryEngine.Get (e : MemoryEngine) (key : String) : (String × Bool) × MemoryEngine :=
  match e.store.lookup key with
  | some value => ((value, true), e)
  | none => (("", false), e)

/-- The method `MemoryEngine.Delete`. -/
def MemoryEngine.Delete (e : MemoryEngine) (key : String) : MemoryEngine :=
  { store := e.store.erase key }

/-! ## `internal/storage/storage.go` -/

/-- The interface `Engine`, over the state `σ` of the implementation. -/
structure Engine (σ : Type) where
  Set : σ → String → String → σ
  Get : σ → String → (String × Bool) × σ
  Delete : σ → String → σ

/-- The engine `MemoryEngine` seen through the interface `Engine`. -/
def memoryEngine : Engine MemoryEngine :=
  { Set := MemoryEngine.Set, Get := MemoryEngine.Get, Delete := MemoryEngine.Delete }

/-- The method `defaultStorage.Set`. -/
def defaultStorage.Set {σ : Type} (engine : Engine σ) (s : σ) (key value : String) :
    Except Error Unit × σ :=
  if key = "" then (.error .ErrEmptyKey, s)
  else (.ok (), engine.Set s key value)

/-- The method `defaultStorage.Get`. -/
def defaultStorage.Get {σ : Type} (engine : Engine σ) (s : σ) (key : String) :
    Except Error String × σ :=
  if key = "" then (.error .ErrEmptyKey, s)
  else
    match engine.Get s key with
    | ((value, exists_), s1) =>
      if !exists_ then (.error .ErrKeyNotFound, s1)
      else (.ok value, s1)

/-- The method `defaultStorage.Delete`. -/
def defaultStorage.Delete {σ : Type} (engine : Engine σ) (s : σ) (key : String) :
    Except Error Unit × σ :=
  if key = "" then (.error .ErrEmptyKey, s)
  else (.ok (), engine.Delete s key)

/-- The constructor `storage.New`. -/
def storage_New {σ : Type} (engine : Engine σ) : StorageLayer σ :=
  { Set := defaultStorage.Set engine
    Get := defaultStorage.Get engine
    Delete := defaultStorage.Delete engine }

/-! ## `internal/database/database.go` -/

/-- The struct `Database`. -/
structure Database (σ : Type) where
  compute : ComputeLayer
  storage : StorageLayer σ

/-- The constructor `database.New`. -/
def database_New {σ : Type} (compute : ComputeLayer) (storage : StorageLayer σ) :
    Database σ :=
  { compute := compute, storage := storage }

/-- The method `Database.HandleQuery`: the returned command or error, and the state
of the storage after the call. -/
def Database.HandleQuery {σ : Type} (db : Database σ) (s : σ) (query : String) :
    Except Error Command × σ :=
  match db.compute.ProcessCommand query with
  | .error err => (.error err, s)
  | .ok cmd =>
    if cmd.Typ = "SET" then
      match db.storage.Set s cmd.Key cmd.Value with
      | (.error err, s1) => (.error err, s1)
      | (.ok _, s1) => (.ok cmd, s1)
    else if cmd.Typ = "GET" then
      match db.storage.Get s cmd.Key with
      | (.error err, s1) => (.error err, s1)
      | (.ok value, s1) => (.ok { cmd with Value := value }, s1)
    else if cmd.Typ = "DEL" then
      match db.storage.Delete s cmd.Key with
      | (.error err, s1) => (.error err, s1)
      | (.ok _, s1) => (.ok cmd, s1)
    else (.error .ErrInvalidCommand, s)

/-! ## `cmd/cli/main.go`: the wiring of the components -/

/-- The storage layer of `main`: `storage.New(engine.NewMemoryEngine(), logger)`. -/
def storageLayer : StorageLayer MemoryEngine :=
  storage_New memoryEngine

/-- The database of `main`: `database.New(parser.New(logger), storageLayer, logger)`. -/
def db (unicode : Unicode) : Database MemoryEngine :=
  database_New (parser_New unicode) storageLayer

/-- The ASCII part of the Go tables: the letters `A-Z`, `a-z` and the digits `0-9`. -/
def asciiTables : Unicode :=
  { IsLetter := Char.isAlpha, IsDigit := Char.isDigit }

/-! ## `pkg/commands/commands.go` -/

/-- The constant `TypeSet`. -/
def TypeSet : String := "SET"

/-- The constant `TypeGet`. -/
def TypeGet : String := "GET"

/-- The constant `TypeDel`. -/
def TypeDel : String := "DEL"

/-- The loop of `splitWords` over the bytes `input[i]` still to read, with the
variables `words`, `currentWord` and `inQuotes` of the function. The conversion
`string(char)` of a byte is the text of the code point with the number of the byte. -/
def splitWordsLoop (words : List String) (currentWord : String) (inQuotes : Bool) :
    List UInt8 → List String
  | [] => if currentWord ≠ "" then words ++ [currentWord] else words
  | char :: rest =>
    if char = 0x22 then splitWordsLoop words currentWord (!inQuotes) rest
    else if char = 0x20 ∧ inQuotes = false then
      if currentWord ≠ "" then splitWordsLoop (words ++ [currentWord]) "" inQuotes rest
      else splitWordsLoop words currentWord inQuotes rest
    else
      splitWordsLoop words (currentWord ++ String.singleton (Char.ofNat char.toNat))
        inQuotes rest

/-- The function `splitWords`, on the UTF-8 bytes of the input. -/
def splitWords (input : String) : List String :=
  splitWordsLoop [] "" false input.toUTF8.data.toList

/-- The function `ParseCommandType`. -/
def ParseCommandType (input : String) : String :=
  let words := splitWords input
  if words.length = 0 then ""
  else if words.getD 0 "" = TypeSet then TypeSet
  else if words.getD 0 "" = TypeGet then TypeGet
  else if words.getD 0 "" = TypeDel then TypeDel
  else ""

/-! ## The grammar of the arguments in the words of the specification -/

/-- The spec's words for an allowed character: a Unicode letter, a Unicode digit, or
one of the marks `* / _ . -`. -/
def allowedChar (unicode : Unicode) (r : Char) : Prop :=
  unicode.IsLetter r = true ∨ unicode.IsDigit r = true ∨ r ∈ ['*', '/', '_', '.', '-']

/-- The spec's words for a key or value token: non-empty and made only of allowed
characters. -/
def allowedToken (unicode : Unicode) (t : String) : Prop :=
  t ≠ "" ∧ ∀ r ∈ t.data, allowedChar unicode r

instance (unicode : Unicode) (r : Char) : Decidable (allowedChar unicode r) :=
  inferInstanceAs (Decidable
    (unicode.IsLetter r = true ∨ unicode.IsDigit r = true ∨ r ∈ ['*', '/', '_', '.', '-']))

instance (unicode : Unicode) (t : String) : Decidable (allowedToken unicode t) :=
  inferInstanceAs (Decidable (t ≠ "" ∧ ∀ r ∈ t.data, allowedChar unicode r))

/-- The spec's words for the words of an input without quotes: the maximal runs of
characters other than the space U+0020, in the order of the input. They are the pieces
of the input between spaces, the empty pieces left out. -/
def spaceRuns (input : String) : List String :=
  ((input.data.splitOn ' ').filter (fun r => decide (r ≠ []))).map String.mk

/-! ## Observers used to state the claims -/

/-- One call of a method of `MemoryEngine`. -/
inductive EngineCall where
  | Set (key value : String)
  | Get (key : String)
  | Delete (key : String)
  deriving DecidableEq, Repr

/-- The engine after one call of a method. -/
def MemoryEngine.call (e : MemoryEngine) : EngineCall → MemoryEngine
  | .Set key value => e.Set key value
  | .Get key => (e.Get key).2
  | .Delete key => e.Delete key

/-- The engine after a sequence of calls, the first call of the list first. -/
def MemoryEngine.run (e : MemoryEngine) (calls : List EngineCall) : MemoryEngine :=
  calls.foldl MemoryEngine.call e

/-- One call of a method of a `StorageLayer`. -/
inductive StorageCall where
  | Set (key value : String)
  | Get (key : String)
  | Delete (key : String)
  deriving DecidableEq, Repr

/-- The storage layer `storage` with a record of the calls it has received: every
method behaves as the method of `storage` and appends its call to the record. -/
def recording {σ : Type} (storage : StorageLayer σ) : StorageLayer (σ × List StorageCall) :=
  { Set := fun s key value =>
      ((storage.Set s.1 key value).1,
        ((storage.Set s.1 key value).2, s.2 ++ [StorageCall.Set key value]))
    Get := fun s key =>
      ((storage.Get s.1 key).1, ((storage.Get s.1 key).2, s.2 ++ [StorageCall.Get key]))
    Delete := fun s key =>
      ((storage.Delete s.1 key).1,
        ((storage.Delete s.1 key).2, s.2 ++ [StorageCall.Delete key])) }

/-! ## The memory engine and the storage layer -/

theorem Get_storageLayer (e : MemoryEngine) (key : String) :
    storageLayer.Get e key =
      if key = "" then (.error .ErrEmptyKey, e)
      else match e.store.lookup key with
        | some v => (.ok v, e)
        | none => (.error .ErrKeyNotFound, e) := by
  simp only [storageLayer, storage_New, defaultStorage.Get, memoryEngine, MemoryEngine.Get]
  split
  · rfl
  · cases e.store.lookup key <;> simp

theorem Set_storageLayer (e : MemoryEngine) (key value : String) :
    storageLayer.Set e key value =
      if key = "" then (.error .ErrEmptyKey, e)
      else (.ok (), { store := e.store.insert key value }) := by
  simp only [storageLayer, storage_New, defaultStorage.Set, memoryEngine, MemoryEngine.Set]
  split <;> simp_all

theorem Delete_storageLayer (e : MemoryEngine) (key : String) :
    storageLayer.Delete e key =
      if key = "" then (.error .ErrEmptyKey, e)
      else (.ok (), { store := e.store.erase key }) := by
  simp only [storageLayer, storage_New, defaultStorage.Delete, memoryEngine,
    MemoryEngine.Delete]

theorem count_key_of_mem (m : Finmap (fun _ : String => String)) (k : String)
    (h : k ∈ m) : m.entries.keys.count k = 1 :=
  Multiset.count_eq_one_of_mem (Multiset.nodup_keys.mpr m.nodupKeys) (Finmap.mem_def.mp h)

theorem erase_of_not_mem (m : Finmap (fun _ : String => String)) (k : String)
    (h : k ∉ m) : m.erase k = m := by
  apply Finmap.ext_lookup
  intro x
  by_cases hx : x = k
  · subst hx
    rw [Finmap.lookup_erase, eq_comm, Finmap.lookup_eq_none]
    exact h
  · exact Finmap.lookup_erase_ne hx

theorem erase_erase_self (m : Finmap (fun _ : String => String)) (k : String) :
    (m.erase k).erase k = m.erase k :=
  erase_of_not_mem _ _ Finmap.not_mem_erase_self


/-- C2. Overwrite semantics: for every store and every non-empty key, after
`Storage.Set(k, v1)` and then `Storage.Set(k, v2)` (both succeed), `Storage.Get(k)`
returns `v2` with no error, it does not return `v1` when `v1` differs from `v2`, and
the store holds exactly one entry whose key is `k`. -/
theorem storage_overwrite (e : MemoryEngine) (k v1 v2 : String) (hk : k ≠ "") :
    (storageLayer.Set e k v1).1 = .ok () ∧
    (storageLayer.Set (storageLayer.Set e k v1).2 k v2).1 = .ok () ∧
    (storageLayer.Get (storageLayer.Set (storageLayer.Set e k v1).2 k v2).2 k).1 = .ok v2 ∧
    (v1 ≠ v2 →
      (storageLayer.Get (storageLayer.Set (storageLayer.Set e k v1).2 k v2).2 k).1 ≠ .ok v1) ∧
    (storageLayer.Set (storageLayer.Set e k v1).2 k v2).2.store.entries.keys.count k = 1 ∧
    (storageLayer.Set (storageLayer.Set e k v1).2 k v2).2.store.lookup k = some v2 := by
  simp only [Set_storageLayer, Get_storageLayer, if_neg hk, Finmap.lookup_insert]
  refine ⟨trivial, trivial, trivial, ?_, ?_, trivial⟩
  · intro h1 h2
    exact h1 (Except.ok.inj h2).symm
  · exact count_key_of_mem _ _ (Finmap.mem_insert.mpr (Or.inl rfl))

theorem storage_overwrite_witness :
    (storageLayer.Get (storageLayer.Set (storageLayer.Set NewMemoryEngine "k" "1").2
      "k" "2").2 "k").1 = .ok "2" :=
  (storage_overwrite NewMemoryEngine "k" "1" "2" (by decide)).2.2.1

/-- C7. `Storage.Get` is a three-way case split for every store and key: with the
empty key it fails with `ErrEmptyKey`; with a non-empty key it fails with
`ErrKeyNotFound` exactly when the engine holds no entry for the key, and otherwise it
returns the stored value with no error. The store after the call is the store
before it. -/
theorem storage_Get_three_way (e : MemoryEngine) (key : String) :
    (key = "" → (storageLayer.Get e key).1 = .error .ErrEmptyKey) ∧
    (key ≠ "" →
      ((storageLayer.Get e key).1 = .error .ErrKeyNotFound ↔ key ∉ e.store)) ∧
    (key ≠ "" → ∀ value, e.store.lookup key = some value →
      (storageLayer.Get e key).1 = .ok value) ∧
    (key ≠ "" → key ∈ e.store → ∃ value, e.store.lookup key = some value ∧
      (storageLayer.Get e key).1 = .ok value) ∧
    (storageLayer.Get e key).2 = e := by
  rw [Get_storageLayer]
  refine ⟨?_, ?_, ?_, ?_, ?_⟩
  · intro h
    simp [h]
  · intro h
    rw [if_neg h, ← Finmap.lookup_eq_none]
    cases e.store.lookup key <;> simp
  · intro h value hv
    simp [h, hv]
  · intro h hmem
    obtain ⟨value, hv⟩ := Finmap.mem_iff.mp hmem
    exact ⟨value, hv, by simp [h, hv]⟩
  · split
    · rfl
    · cases e.store.lookup key <;> rfl

/-- C8. `Storage.Set(key, value)` fails if and only if the key is the empty string,
and then the error is `ErrEmptyKey` and the store is unchanged; for every non-empty
key and every value (the empty value included) it succeeds, and a following
`Storage.Get(key)` returns that value. -/
theorem storage_Set_spec (e : MemoryEngine) (key value : String) :
    ((storageLayer.Set e key value).1 ≠ .ok () ↔ key = "") ∧
    (key = "" → storageLayer.Set e key value = (.error .ErrEmptyKey, e)) ∧
    (key ≠ "" → (storageLayer.Set e key value).1 = .ok () ∧
      (storageLayer.Get (storageLayer.Set e key value).2 key).1 = .ok value) := by
  rw [Set_storageLayer]
  by_cases h : key = ""
  · simp [h]
  · simp [h, Get_storageLayer]

/-- C9. `Storage.Delete(key)` fails if and only if the key is the empty string, and
then the error is `ErrEmptyKey` and the store is unchanged; for every non-empty key
it succeeds, whether or not the key was present, and a following `Storage.Get(key)`
fails with `ErrKeyNotFound`. -/
theorem storage_Delete_spec (e : MemoryEngine) (key : String) :
    ((storageLayer.Delete e key).1 ≠ .ok () ↔ key = "") ∧
    (key = "" → storageLayer.Delete e key = (.error .ErrEmptyKey, e)) ∧
    (key ≠ "" → (storageLayer.Delete e key).1 = .ok () ∧
      (storageLayer.Get (storageLayer.Delete e key).2 key).1 = .error .ErrKeyNotFound) := by
  rw [Delete_storageLayer]
  by_cases h : key = ""
  · simp [h]
  · simp [h, Get_storageLayer]


/-! ## The parser -/

theorem isValidChar_iff (unicode : Unicode) (r : Char) :
    isValidChar unicode r = true ↔ allowedChar unicode r := by
  simp only [isValidChar, allowedChar, isPunctuation, Bool.or_eq_true, beq_iff_eq,
    List.mem_cons, List.mem_singleton, List.mem_nil_iff, or_false]
  tauto

theorem length_eq_zero_iff (t : String) : t.length = 0 ↔ t = "" := by
  rw [String.length, List.length_eq_zero]
  constructor
  · intro h
    exact String.ext h
  · intro h
    rw [h]

theorem isValidArgument_iff (unicode : Unicode) (t : String) :
    isValidArgument unicode t = true ↔ allowedToken unicode t := by
  unfold isValidArgument allowedToken
  by_cases h : t = ""
  · simp [h]
  · rw [if_neg (mt (length_eq_zero_iff t).mp h)]
    simp [h, List.all_eq_true, isValidChar_iff]

theorem validateArguments_cond (unicode : Unicode) (cmd : Command) :
    (!isValidArgument unicode cmd.Key ||
      (cmd.Typ == "SET" && !isValidArgument unicode cmd.Value)) = true ↔
      ¬ (allowedToken unicode cmd.Key ∧
        (cmd.Typ = "SET" → allowedToken unicode cmd.Value)) := by
  simp only [← isValidArgument_iff]
  by_cases h1 : isValidArgument unicode cmd.Key = true <;>
    by_cases h2 : cmd.Typ = "SET" <;>
    by_cases h3 : isValidArgument unicode cmd.Value = true <;>
    simp [h1, h2, h3]

theorem validateArguments_ok_iff (unicode : Unicode) (cmd c : Command) :
    validateArguments unicode cmd = .ok c ↔
      c = cmd ∧ allowedToken unicode cmd.Key ∧
        (cmd.Typ = "SET" → allowedToken unicode cmd.Value) := by
  unfold validateArguments
  by_cases h : allowedToken unicode cmd.Key ∧
      (cmd.Typ = "SET" → allowedToken unicode cmd.Value)
  · rw [if_neg (fun hc => (validateArguments_cond unicode cmd).mp hc h)]
    constructor
    · intro e
      exact ⟨(Except.ok.inj e).symm, h⟩
    · rintro ⟨rfl, _⟩
      rfl
  · rw [if_pos ((validateArguments_cond unicode cmd).mpr h)]
    constructor
    · intro e
      cases e
    · rintro ⟨_, h2⟩
      exact absurd h2 h

theorem validateArguments_error_iff (unicode : Unicode) (cmd : Command) (err : Error) :
    validateArguments unicode cmd = .error err ↔
      err = .ErrInvalidSyntax ∧ ¬ (allowedToken unicode cmd.Key ∧
        (cmd.Typ = "SET" → allowedToken unicode cmd.Value)) := by
  unfold validateArguments
  by_cases h : allowedToken unicode cmd.Key ∧
      (cmd.Typ = "SET" → allowedToken unicode cmd.Value)
  · rw [if_neg (fun hc => (validateArguments_cond unicode cmd).mp hc h)]
    constructor
    · intro e
      cases e
    · rintro ⟨_, h2⟩
      exact absurd h h2
  · rw [if_pos ((validateArguments_cond unicode cmd).mpr h)]
    constructor
    · intro e
      exact ⟨(Except.error.inj e).symm, h⟩
    · rintro ⟨rfl, _⟩
      rfl

/-- The body of `parseCommand` as a function of the token list. -/
theorem parseCommand_of_Fields (unicode : Unicode) (input : String) :
    parseCommand unicode input =
      match Fields input with
      | [] => .error .ErrInvalidCommand
      | w :: rest =>
        if w = "SET" then
          match rest with
          | [k, v] => validateArguments unicode { Typ := "SET", Key := k, Value := v }
          | _ => .error .ErrInvalidSyntax
        else if w = "GET" then
          match rest with
          | [k] => validateArguments unicode { Typ := "GET", Key := k, Value := "" }
          | _ => .error .ErrInvalidSyntax
        else if w = "DEL" then
          match rest with
          | [k] => validateArguments unicode { Typ := "DEL", Key := k, Value := "" }
          | _ => .error .ErrInvalidSyntax
        else .error .ErrInvalidCommand := by
  unfold parseCommand
  rcases Fields input with _ | ⟨w, _ | ⟨k, _ | ⟨v, _ | ⟨x, rest⟩⟩⟩⟩ <;> simp

theorem fieldsLoop_eq_nil (rs cur : List Char) :
    fieldsLoop cur rs = [] ↔ cur = [] ∧ ∀ r ∈ rs, isSpace r = true := by
  induction rs generalizing cur with
  | nil => cases cur <;> simp [fieldsLoop]
  | cons r rest ih =>
    unfold fieldsLoop
    by_cases hr : isSpace r = true
    · cases cur with
      | nil => simp [hr, ih]
      | cons c cs => simp [hr]
    · simp [hr, ih]

/-- C3. The parser fails with `ErrInvalidCommand` if and only if the list of
whitespace-separated tokens of the input is empty (which is the case exactly when
every character of the input is a whitespace character) or its first token is none of
the literals `SET`, `GET`, `DEL`, whatever the further tokens are; the comparison is
case-sensitive, so `set`, `SeT` and `INVALID` are rejected. -/
theorem parser_InvalidCommand_iff (unicode : Unicode) (input : String) :
    (parseCommand unicode input = .error .ErrInvalidCommand ↔
      Fields input = [] ∨
        ∃ w rest, Fields input = w :: rest ∧ w ≠ "SET" ∧ w ≠ "GET" ∧ w ≠ "DEL") ∧
    (Fields input = [] ↔ ∀ r ∈ input.data, isSpace r = true) ∧
    parseCommand unicode "" = .error .ErrInvalidCommand ∧
    parseCommand unicode "set key value" = .error .ErrInvalidCommand ∧
    parseCommand unicode "SeT key value" = .error .ErrInvalidCommand ∧
    parseCommand unicode "INVALID" = .error .ErrInvalidCommand := by
  refine ⟨?_, ?_, ?_, ?_, ?_, ?_⟩
  · rw [parseCommand_of_Fields]
    rcases Fields input with _ | ⟨w, rest⟩
    · simp
    · by_cases h1 : w = "SET"
      · subst h1
        rcases rest with _ | ⟨k, _ | ⟨v, _ | ⟨x, rest⟩⟩⟩ <;>
          simp [validateArguments_error_iff]
      · by_cases h2 : w = "GET"
        · subst h2
          rcases rest with _ | ⟨k, _ | ⟨x, rest⟩⟩ <;>
            simp [validateArguments_error_iff]
        · by_cases h3 : w = "DEL"
          · subst h3
            rcases rest with _ | ⟨k, _ | ⟨x, rest⟩⟩ <;>
              simp [validateArguments_error_iff]
          · simp [h1, h2, h3]
  · simp [Fields, fieldsLoop_eq_nil]
  · rfl
  · rw [parseCommand_of_Fields, show Fields "set key value" = ["set", "key", "value"] by decide]
    simp
  · rw [parseCommand_of_Fields, show Fields "SeT key value" = ["SeT", "key", "value"] by decide]
    simp
  · rw [parseCommand_of_Fields, show Fields "INVALID" = ["INVALID"] by decide]
    simp

/-- C4. Arity check: an input whose first token is `SET` and whose token count is not
3, or whose first token is `GET` or `DEL` and whose token count is not 2, makes the
parser fail with `ErrInvalidSyntax`. -/
theorem parser_arity (unicode : Unicode) (input : String)
    (h : ((Fields input).head? = some "SET" ∧ (Fields input).length ≠ 3) ∨
      (((Fields input).head? = some "GET" ∨ (Fields input).head? = some "DEL") ∧
        (Fields input).length ≠ 2)) :
    parseCommand unicode input = .error .ErrInvalidSyntax := by
  rw [parseCommand_of_Fields]
  generalize Fields input = words at h ⊢
  rcases words with _ | ⟨w, _ | ⟨k, _ | ⟨v, _ | ⟨x, rest⟩⟩⟩⟩ <;>
    simp only [List.head?_cons, List.head?_nil, Option.some.injEq, List.length_cons,
      List.length_nil] at h <;>
    rcases h with ⟨h1, h2⟩ | ⟨h1 | h1, h2⟩ <;>
    first
      | omega
      | (subst h1; simp)
      | cases h1

theorem parser_arity_witness :
    parseCommand asciiTables "SET key" = .error .ErrInvalidSyntax ∧
    parseCommand asciiTables "GET key value" = .error .ErrInvalidSyntax ∧
    parseCommand asciiTables "DEL key value" = .error .ErrInvalidSyntax :=
  ⟨parser_arity asciiTables "SET key" (by decide),
    parser_arity asciiTables "GET key value" (by decide),
    parser_arity asciiTables "DEL key value" (by decide)⟩

/-- C5. Character-class enforcement: when the first token is `SET`, `GET` or `DEL`
and the key token (the second token), or for `SET` the value token (the third token),
contains a character that is neither a Unicode letter nor a Unicode digit nor one of
`* / _ . -`, the parser fails with `ErrInvalidSyntax`. -/
theorem parser_character_class (unicode : Unicode) (input : String)
    (hverb : (Fields input).head? = some "SET" ∨ (Fields input).head? = some "GET" ∨
      (Fields input).head? = some "DEL")
    (hbad : (∃ key, (Fields input)[1]? = some key ∧
        ∃ r ∈ key.data, ¬ allowedChar unicode r) ∨
      ((Fields input).head? = some "SET" ∧ ∃ value, (Fields input)[2]? = some value ∧
        ∃ r ∈ value.data, ¬ allowedChar unicode r)) :
    parseCommand unicode input = .error .ErrInvalidSyntax := by
  rw [parseCommand_of_Fields]
  generalize Fields input = words at hverb hbad ⊢
  rcases words with _ | ⟨w, rest⟩
  · simp at hverb
  · simp only [List.head?_cons, Option.some.injEq] at hverb hbad
    have key_bad : ∀ key : String, (∃ r ∈ key.data, ¬ allowedChar unicode r) →
        ¬ allowedToken unicode key := by
      rintro key ⟨r, hr, hnot⟩ ⟨_, hall⟩
      exact hnot (hall r hr)
    rcases hverb with rfl | rfl | rfl
    · rcases rest with _ | ⟨k, _ | ⟨v, _ | ⟨x, rest⟩⟩⟩ <;>
        simp only [if_pos, validateArguments_error_iff, true_and]
      rcases hbad with ⟨key, hk, hr⟩ | ⟨_, value, hv, hr⟩
      · simp only [List.getElem?_cons_succ, List.getElem?_cons_zero,
          Option.some.injEq] at hk
        subst hk
        exact fun hc => key_bad _ hr hc.1
      · simp only [List.getElem?_cons_succ, List.getElem?_cons_zero,
          Option.some.injEq] at hv
        subst hv
        exact fun hc => key_bad _ hr (hc.2 trivial)
    · rcases rest with _ | ⟨k, _ | ⟨x, rest⟩⟩ <;>
        simp [validateArguments_error_iff]
      rcases hbad with ⟨key, hk, hr⟩ | ⟨h, _⟩
      · simp only [List.getElem?_cons_succ, List.getElem?_cons_zero,
          Option.some.injEq] at hk
        subst hk
        exact key_bad _ hr
      · exact absurd h (by decide)
    · rcases rest with _ | ⟨k, _ | ⟨x, rest⟩⟩ <;>
        simp [validateArguments_error_iff]
      rcases hbad with ⟨key, hk, hr⟩ | ⟨h, _⟩
      · simp only [List.getElem?_cons_succ, List.getElem?_cons_zero,
          Option.some.injEq] at hk
        subst hk
        exact key_bad _ hr
      · exact absurd h (by decide)

theorem parser_character_class_witness :
    parseCommand asciiTables "SET key@ value" = .error .ErrInvalidSyntax :=
  parser_character_class asciiTables "SET key@ value" (by decide)
    (Or.inl ⟨"key@", by decide, '@', by decide, by decide⟩)

theorem parseCommand_ok_iff (unicode : Unicode) (input : String) (cmd : Command) :
    parseCommand unicode input = .ok cmd ↔
      (∃ k v, Fields input = ["SET", k, v] ∧ allowedToken unicode k ∧
        allowedToken unicode v ∧ cmd = { Typ := "SET", Key := k, Value := v }) ∨
      (∃ k, Fields input = ["GET", k] ∧ allowedToken unicode k ∧
        cmd = { Typ := "GET", Key := k, Value := "" }) ∨
      (∃ k, Fields input = ["DEL", k] ∧ allowedToken unicode k ∧
        cmd = { Typ := "DEL", Key := k, Value := "" }) := by
  rw [parseCommand_of_Fields]
  rcases Fields input with _ | ⟨w, rest⟩
  · simp
  · by_cases h1 : w = "SET"
    · subst h1
      rcases rest with _ | ⟨k, _ | ⟨v, _ | ⟨x, rest⟩⟩⟩
      · simp
      · simp
      · simp only [if_pos, validateArguments_ok_iff]
        constructor
        · rintro ⟨rfl, hk, hv⟩
          exact Or.inl ⟨k, v, rfl, hk, hv trivial, rfl⟩
        · rintro (⟨k1, v1, h, hk, hv, rfl⟩ | ⟨k1, h, _⟩ | ⟨k1, h, _⟩)
          · simp only [List.cons.injEq, true_and, and_true] at h
            obtain ⟨rfl, rfl⟩ := h
            exact ⟨rfl, hk, fun _ => hv⟩
          · simp at h
          · simp at h
      · simp
    · by_cases h2 : w = "GET"
      · subst h2
        rcases rest with _ | ⟨k, _ | ⟨x, rest⟩⟩
        · simp
        · simp only [String.reduceEq, if_false, if_true, validateArguments_ok_iff]
          constructor
          · rintro ⟨rfl, hk, _⟩
            exact Or.inr (Or.inl ⟨k, rfl, hk, rfl⟩)
          · rintro (⟨k1, v1, h, _⟩ | ⟨k1, h, hk, rfl⟩ | ⟨k1, h, _⟩)
            · simp at h
            · simp only [List.cons.injEq, true_and, and_true] at h
              subst h
              exact ⟨rfl, hk, fun hc => absurd hc (by decide)⟩
            · simp at h
        · simp
      · by_cases h3 : w = "DEL"
        · subst h3
          rcases rest with _ | ⟨k, _ | ⟨x, rest⟩⟩
          · simp
          · simp only [String.reduceEq, if_false, if_true, validateArguments_ok_iff]
            constructor
            · rintro ⟨rfl, hk, _⟩
              exact Or.inr (Or.inr ⟨k, rfl, hk, rfl⟩)
            · rintro (⟨k1, v1, h, _⟩ | ⟨k1, h, _⟩ | ⟨k1, h, hk, rfl⟩)
              · simp at h
              · simp at h
              · simp only [List.cons.injEq, true_and, and_true] at h
                subst h
                exact ⟨rfl, hk, fun hc => absurd hc (by decide)⟩
          · simp
        · simp [h1, h2, h3]

/-- C6. Parser success is exactly the grammar: the parser returns the command `cmd`
if and only if the token list is `[SET, k, v]` with `k` and `v` non-empty and made only
of allowed characters and `cmd` is the command of kind `SET` with key `k` and value
`v`, or the token list is `[GET, k]` or `[DEL, k]` with such a `k` and `cmd` is the
command of that kind with key `k` and the empty string as value. -/
theorem parser_success_iff (unicode : Unicode) (input : String) (cmd : Command) :
    parseCommand unicode input = .ok cmd ↔
      (∃ k v, Fields input = ["SET", k, v] ∧ allowedToken unicode k ∧
        allowedToken unicode v ∧ cmd = { Typ := "SET", Key := k, Value := v }) ∨
      (∃ k, Fields input = ["GET", k] ∧ allowedToken unicode k ∧
        cmd = { Typ := "GET", Key := k, Value := "" }) ∨
      (∃ k, Fields input = ["DEL", k] ∧ allowedToken unicode k ∧
        cmd = { Typ := "DEL", Key := k, Value := "" }) :=
  parseCommand_ok_iff unicode input cmd

/-! ## The dispatcher on the components of `main` -/

theorem fieldsLoop_nonspace (w : List Char) (hw : ∀ r ∈ w, isSpace r = false)
    (cur rest : List Char) :
    fieldsLoop cur (w ++ rest) = fieldsLoop (w.reverse ++ cur) rest := by
  induction w generalizing cur with
  | nil => rfl
  | cons r w ih =>
    have hr : isSpace r = false := hw r (List.mem_cons_self r w)
    rw [List.cons_append, fieldsLoop, if_neg (by simp [hr]),
      ih (fun x hx => hw x (List.mem_cons_of_mem r hx))]
    simp

theorem fieldsLoop_token_space (t : String) (ht : t ≠ "")
    (hs : ∀ r ∈ t.data, isSpace r = false) (sp : Char) (hsp : isSpace sp = true)
    (rest : List Char) :
    fieldsLoop [] (t.data ++ sp :: rest) = t :: fieldsLoop [] rest := by
  have hne : t.data ≠ [] := fun h => ht (String.ext h)
  rw [fieldsLoop_nonspace t.data hs, fieldsLoop, if_pos hsp, if_neg (by simpa using hne)]
  simp

theorem fieldsLoop_token_end (t : String) (ht : t ≠ "")
    (hs : ∀ r ∈ t.data, isSpace r = false) :
    fieldsLoop [] t.data = [t] := by
  have hne : t.data ≠ [] := fun h => ht (String.ext h)
  have h := fieldsLoop_nonspace t.data hs [] []
  rw [List.append_nil] at h
  rw [h, fieldsLoop, if_neg (by simpa using hne)]
  simp

theorem allowedToken_nonspace (unicode : Unicode)
    (hL : ∀ r, unicode.IsLetter r = true → isSpace r = false)
    (hD : ∀ r, unicode.IsDigit r = true → isSpace r = false)
    (t : String) (ht : allowedToken unicode t) :
    ∀ r ∈ t.data, isSpace r = false := by
  intro r hr
  rcases ht.2 r hr with h | h | h
  · exact hL r h
  · exact hD r h
  · simp only [List.mem_cons, List.mem_singleton, List.mem_nil_iff, or_false] at h
    rcases h with rfl | rfl | rfl | rfl | rfl <;> decide

theorem Fields_SET (t1 t2 : String) (h1 : t1 ≠ "") (h2 : t2 ≠ "")
    (hs1 : ∀ r ∈ t1.data, isSpace r = false) (hs2 : ∀ r ∈ t2.data, isSpace r = false) :
    Fields ("SET " ++ t1 ++ " " ++ t2) = ["SET", t1, t2] := by
  have e : ("SET " ++ t1 ++ " " ++ t2).data =
      ("SET" : String).data ++ ' ' :: (t1.data ++ ' ' :: t2.data) := by
    simp [String.data_append]
  rw [Fields, e, fieldsLoop_token_space "SET" (by decide) (by decide) ' ' (by decide),
    fieldsLoop_token_space t1 h1 hs1 ' ' (by decide), fieldsLoop_token_end t2 h2 hs2]

theorem Fields_verb_key (verb t : String) (hv : verb ≠ "")
    (hsv : ∀ r ∈ verb.data, isSpace r = false) (h : t ≠ "")
    (hs : ∀ r ∈ t.data, isSpace r = false) :
    Fields (verb ++ " " ++ t) = [verb, t] := by
  have e : (verb ++ " " ++ t).data = verb.data ++ ' ' :: t.data := by
    simp [String.data_append]
  rw [Fields, e, fieldsLoop_token_space verb hv hsv ' ' (by decide),
    fieldsLoop_token_end t h hs]

theorem Fields_GET (t : String) (h : t ≠ "") (hs : ∀ r ∈ t.data, isSpace r = false) :
    Fields ("GET " ++ t) = ["GET", t] :=
  Fields_verb_key "GET" t (by decide) (by decide) h hs

theorem Fields_DEL (t : String) (h : t ≠ "") (hs : ∀ r ∈ t.data, isSpace r = false) :
    Fields ("DEL " ++ t) = ["DEL", t] :=
  Fields_verb_key "DEL" t (by decide) (by decide) h hs

theorem HandleQuery_SET (unicode : Unicode) (e : MemoryEngine) (query k v : String)
    (hp : parseCommand unicode query = .ok { Typ := "SET", Key := k, Value := v })
    (hk : k ≠ "") :
    (db unicode).HandleQuery e query =
      (.ok { Typ := "SET", Key := k, Value := v }, { store := e.store.insert k v }) := by
  have hs := Set_storageLayer e k v
  rw [if_neg hk] at hs
  simp only [Database.HandleQuery, db, database_New, parser_New, hp, if_true, hs]

theorem HandleQuery_GET (unicode : Unicode) (e : MemoryEngine) (query k : String)
    (hp : parseCommand unicode query = .ok { Typ := "GET", Key := k, Value := "" })
    (hk : k ≠ "") :
    (db unicode).HandleQuery e query =
      match e.store.lookup k with
      | some v => (.ok { Typ := "GET", Key := k, Value := v }, e)
      | none => (.error .ErrKeyNotFound, e) := by
  have hs := Get_storageLayer e k
  rw [if_neg hk] at hs
  simp only [Database.HandleQuery, db, database_New, parser_New, hp, String.reduceEq,
    if_false, if_true, hs]
  cases e.store.lookup k <;> rfl

theorem HandleQuery_DEL (unicode : Unicode) (e : MemoryEngine) (query k : String)
    (hp : parseCommand unicode query = .ok { Typ := "DEL", Key := k, Value := "" })
    (hk : k ≠ "") :
    (db unicode).HandleQuery e query =
      (.ok { Typ := "DEL", Key := k, Value := "" }, { store := e.store.erase k }) := by
  have hs := Delete_storageLayer e k
  rw [if_neg hk] at hs
  simp only [Database.HandleQuery, db, database_New, parser_New, hp, String.reduceEq,
    if_false, if_true, hs]

theorem toNat_of_le (r : Char) (a b : UInt32) (h : a ≤ r.val ∧ r.val ≤ b) :
    a.toNat ≤ r.toNat ∧ r.toNat ≤ b.toNat := h

theorem asciiTables_letter (r : Char) (h : asciiTables.IsLetter r = true) :
    isSpace r = false := by
  simp only [asciiTables, Char.isAlpha, Char.isUpper, Char.isLower, Bool.or_eq_true,
    Bool.and_eq_true, decide_eq_true_eq, ge_iff_le] at h
  have h2 : (65 ≤ r.toNat ∧ r.toNat ≤ 90) ∨ (97 ≤ r.toNat ∧ r.toNat ≤ 122) :=
    h.imp (toNat_of_le r 65 90) (toNat_of_le r 97 122)
  simp only [isSpace, Bool.or_eq_false_iff, Bool.and_eq_false_iff, beq_eq_false_iff_ne,
    decide_eq_false_iff_not]
  omega

theorem asciiTables_digit (r : Char) (h : asciiTables.IsDigit r = true) :
    isSpace r = false := by
  simp only [asciiTables, Char.isDigit, Bool.and_eq_true, decide_eq_true_eq,
    ge_iff_le] at h
  have h2 : 48 ≤ r.toNat ∧ r.toNat ≤ 57 := toNat_of_le r 48 57 h
  simp only [isSpace, Bool.or_eq_false_iff, Bool.and_eq_false_iff, beq_eq_false_iff_ne,
    decide_eq_false_iff_not]
  omega

/-- C1. Round trip through the dispatcher: for every store and all non-empty strings
`k` and `v` made only of letters, digits and the marks `* / _ . -` (no letter and no
digit of the Unicode tables being a whitespace character), the query
`"SET " ++ k ++ " " ++ v` succeeds, and the query `"GET " ++ k` issued directly
afterwards succeeds and returns a command whose value is exactly `v`. -/
theorem dispatcher_round_trip (unicode : Unicode)
    (hL : ∀ r, unicode.IsLetter r = true → isSpace r = false)
    (hD : ∀ r, unicode.IsDigit r = true → isSpace r = false)
    (e : MemoryEngine) (k v : String)
    (hk : allowedToken unicode k) (hv : allowedToken unicode v) :
    ((db unicode).HandleQuery e ("SET " ++ k ++ " " ++ v)).1 =
      .ok { Typ := "SET", Key := k, Value := v } ∧
    ((db unicode).HandleQuery ((db unicode).HandleQuery e ("SET " ++ k ++ " " ++ v)).2
      ("GET " ++ k)).1 = .ok { Typ := "GET", Key := k, Value := v } := by
  have hsk := allowedToken_nonspace unicode hL hD k hk
  have hsv := allowedToken_nonspace unicode hL hD v hv
  have hset : parseCommand unicode ("SET " ++ k ++ " " ++ v) =
      .ok { Typ := "SET", Key := k, Value := v } :=
    (parseCommand_ok_iff unicode _ _).mpr
      (Or.inl ⟨k, v, Fields_SET k v hk.1 hv.1 hsk hsv, hk, hv, rfl⟩)
  have hget : parseCommand unicode ("GET " ++ k) =
      .ok { Typ := "GET", Key := k, Value := "" } :=
    (parseCommand_ok_iff unicode _ _).mpr
      (Or.inr (Or.inl ⟨k, Fields_GET k hk.1 hsk, hk, rfl⟩))
  rw [HandleQuery_SET unicode e _ k v hset hk.1, HandleQuery_GET unicode _ _ k hget hk.1]
  simp [Finmap.lookup_insert]

theorem dispatcher_round_trip_witness :
    ((db asciiTables).HandleQuery NewMemoryEngine "SET alpha 123").1 =
      .ok { Typ := "SET", Key := "alpha", Value := "123" } ∧
    ((db asciiTables).HandleQuery ((db asciiTables).HandleQuery NewMemoryEngine
      "SET alpha 123").2 "GET alpha").1 = .ok { Typ := "GET", Key := "alpha", Value := "123" } :=
  dispatcher_round_trip asciiTables asciiTables_letter asciiTables_digit NewMemoryEngine
    "alpha" "123" (by decide) (by decide)

/-- C10. Idempotent delete: for every store and every valid key `k` (non-empty, made
only of allowed characters, no letter and no digit of the Unicode tables being a
whitespace character), the query `"DEL " ++ k` succeeds; when `k` is absent from the
store it leaves the store unchanged; and issuing it a second time succeeds again and
leaves the store that the first one left. -/
theorem dispatcher_delete_idempotent (unicode : Unicode)
    (hL : ∀ r, unicode.IsLetter r = true → isSpace r = false)
    (hD : ∀ r, unicode.IsDigit r = true → isSpace r = false)
    (e : MemoryEngine) (k : String) (hk : allowedToken unicode k) :
    ((db unicode).HandleQuery e ("DEL " ++ k)).1 =
      .ok { Typ := "DEL", Key := k, Value := "" } ∧
    (k ∉ e.store → ((db unicode).HandleQuery e ("DEL " ++ k)).2 = e) ∧
    ((db unicode).HandleQuery ((db unicode).HandleQuery e ("DEL " ++ k)).2
      ("DEL " ++ k)).1 = .ok { Typ := "DEL", Key := k, Value := "" } ∧
    ((db unicode).HandleQuery ((db unicode).HandleQuery e ("DEL " ++ k)).2
      ("DEL " ++ k)).2 = ((db unicode).HandleQuery e ("DEL " ++ k)).2 := by
  have hsk := allowedToken_nonspace unicode hL hD k hk
  have hdel : parseCommand unicode ("DEL " ++ k) =
      .ok { Typ := "DEL", Key := k, Value := "" } :=
    (parseCommand_ok_iff unicode _ _).mpr
      (Or.inr (Or.inr ⟨k, Fields_DEL k hk.1 hsk, hk, rfl⟩))
  rw [HandleQuery_DEL unicode e _ k hdel hk.1, HandleQuery_DEL unicode _ _ k hdel hk.1]
  refine ⟨rfl, ?_, rfl, ?_⟩
  · intro hab
    show MemoryEngine.mk (e.store.erase k) = e
    rw [erase_of_not_mem _ _ hab]
  · show MemoryEngine.mk ((e.store.erase k).erase k) = MemoryEngine.mk (e.store.erase k)
    rw [erase_erase_self]

theorem dispatcher_delete_idempotent_witness :
    ((db asciiTables).HandleQuery NewMemoryEngine "DEL nokey") =
      (.ok { Typ := "DEL", Key := "nokey", Value := "" }, NewMemoryEngine) :=
  Prod.ext
    (dispatcher_delete_idempotent asciiTables asciiTables_letter asciiTables_digit
      NewMemoryEngine "nokey" (by decide)).1
    ((dispatcher_delete_idempotent asciiTables asciiTables_letter asciiTables_digit
      NewMemoryEngine "nokey" (by decide)).2.1 (by decide))

/-! ## The memory engine: point update, point erase, the empty key -/

theorem Get_MemoryEngine (e : MemoryEngine) (key : String) :
    (e.Get key).1 =
      match e.store.lookup key with
      | some value => (value, true)
      | none => ("", false) := by
  unfold MemoryEngine.Get
  cases e.store.lookup key <;> rfl

theorem Get_MemoryEngine_state (e : MemoryEngine) (key : String) : (e.Get key).2 = e := by
  unfold MemoryEngine.Get
  cases e.store.lookup key <;> rfl

/-- C18. `Engine.Set` is a point update: for every engine state, every non-empty key
`k` and every value `v` (the empty string included), after `Set(k, v)` the call
`Get(k)` returns `(v, true)`, and for every key `k2` different from `k` the call
`Get(k2)` returns what it returned before the `Set`. -/
theorem engine_Set_point_update (e : MemoryEngine) (k v : String) (hk : k ≠ "") :
    ((e.Set k v).Get k).1 = (v, true) ∧
    ∀ k2, k2 ≠ k → ((e.Set k v).Get k2).1 = (e.Get k2).1 := by
  simp only [Get_MemoryEngine, MemoryEngine.Set, if_neg hk, Finmap.lookup_insert]
  refine ⟨trivial, ?_⟩
  intro k2 h2
  rw [Finmap.lookup_insert_of_ne _ h2]

theorem engine_Set_point_update_witness :
    (((NewMemoryEngine.Set "a" "1").Set "k" "").Get "k").1 = ("", true) ∧
    (((NewMemoryEngine.Set "a" "1").Set "k" "").Get "a").1 =
      ((NewMemoryEngine.Set "a" "1").Get "a").1 :=
  ⟨(engine_Set_point_update (NewMemoryEngine.Set "a" "1") "k" "" (by decide)).1,
    (engine_Set_point_update (NewMemoryEngine.Set "a" "1") "k" "" (by decide)).2 "a"
      (by decide)⟩

/-- C19. `Engine.Delete` is a point erase: for every engine state and every key `k`
(the empty string and keys that were never set included), after `Delete(k)` the call
`Get(k)` returns `("", false)`, and for every key `k2` different from `k` the call
`Get(k2)` returns what it returned before the `Delete`. -/
theorem engine_Delete_point_erase (e : MemoryEngine) (k : String) :
    ((e.Delete k).Get k).1 = ("", false) ∧
    ∀ k2, k2 ≠ k → ((e.Delete k).Get k2).1 = (e.Get k2).1 := by
  simp only [Get_MemoryEngine, MemoryEngine.Delete, Finmap.lookup_erase]
  refine ⟨trivial, ?_⟩
  intro k2 h2
  rw [Finmap.lookup_erase_ne h2]

theorem run_empty_key_absent (calls : List EngineCall) (e : MemoryEngine)
    (h : e.store.lookup "" = none) : (e.run calls).store.lookup "" = none := by
  induction calls generalizing e with
  | nil => exact h
  | cons c cs ih =>
    apply ih
    cases c with
    | Set key value =>
      simp only [MemoryEngine.call, MemoryEngine.Set]
      split
      · exact h
      · next hne => rw [Finmap.lookup_insert_of_ne _ (Ne.symm hne)]; exact h
    | Get key =>
      simp only [MemoryEngine.call, Get_MemoryEngine_state]
      exact h
    | Delete key =>
      simp only [MemoryEngine.call, MemoryEngine.Delete]
      by_cases hk : "" = key
      · rw [← hk, Finmap.lookup_erase]
      · rw [Finmap.lookup_erase_ne hk]; exact h

/-- C15. The empty key is never stored: `Engine.Set` with the empty string as key
leaves the store unchanged for every value, and in every state reached from
`NewMemoryEngine` by a sequence of `Set`, `Get` and `Delete` calls, `Get("")`
reports not found. -/
theorem engine_empty_key_never_stored :
    (∀ (e : MemoryEngine) (value : String), e.Set "" value = e) ∧
    ∀ calls : List EngineCall,
      ((NewMemoryEngine.run calls).Get "").1 = ("", false) ∧
      "" ∉ (NewMemoryEngine.run calls).store := by
  refine ⟨fun e value => rfl, fun calls => ?_⟩
  have h := run_empty_key_absent calls NewMemoryEngine (Finmap.lookup_empty "")
  refine ⟨?_, Finmap.lookup_eq_none.mp h⟩
  rw [Get_MemoryEngine, h]

/-! ## The dispatcher: results, errors and the state on failure -/

theorem HandleQuery_parse_error (unicode : Unicode) (e : MemoryEngine) (query : String)
    (err : Error) (hp : parseCommand unicode query = .error err) :
    (db unicode).HandleQuery e query = (.error err, e) := by
  simp only [Database.HandleQuery, db, database_New, parser_New, hp]

theorem parseCommand_ok_shape (unicode : Unicode) (query : String) (cmd : Command)
    (h : parseCommand unicode query = .ok cmd) :
    allowedToken unicode cmd.Key ∧
      (cmd = { Typ := "SET", Key := cmd.Key, Value := cmd.Value } ∨
        cmd = { Typ := "GET", Key := cmd.Key, Value := "" } ∨
        cmd = { Typ := "DEL", Key := cmd.Key, Value := "" }) := by
  rcases (parseCommand_ok_iff unicode query cmd).mp h with
    ⟨k, v, _, hk, _, rfl⟩ | ⟨k, _, hk, rfl⟩ | ⟨k, _, hk, rfl⟩
  · exact ⟨hk, Or.inl rfl⟩
  · exact ⟨hk, Or.inr (Or.inl rfl)⟩
  · exact ⟨hk, Or.inr (Or.inr rfl)⟩

theorem parseCommand_error_kinds (unicode : Unicode) (query : String) (err : Error)
    (h : parseCommand unicode query = .error err) :
    err = .ErrInvalidCommand ∨ err = .ErrInvalidSyntax := by
  unfold parseCommand at h
  dsimp only at h
  repeat' split at h
  all_goals first
    | exact Or.inl (Except.error.inj h).symm
    | exact Or.inr (Except.error.inj h).symm
    | exact Or.inr ((validateArguments_error_iff _ _ _).mp h).1

/-- The four ways a query goes through the dispatcher of `main`. -/
theorem HandleQuery_cases (unicode : Unicode) (e : MemoryEngine) (query : String) :
    (∃ err, parseCommand unicode query = .error err ∧
      (err = .ErrInvalidCommand ∨ err = .ErrInvalidSyntax) ∧
      (db unicode).HandleQuery e query = (.error err, e)) ∨
    (∃ k v, parseCommand unicode query = .ok { Typ := "SET", Key := k, Value := v } ∧
      k ≠ "" ∧ (db unicode).HandleQuery e query =
        (.ok { Typ := "SET", Key := k, Value := v }, { store := e.store.insert k v })) ∨
    (∃ k, parseCommand unicode query = .ok { Typ := "GET", Key := k, Value := "" } ∧
      k ≠ "" ∧ (db unicode).HandleQuery e query =
        match e.store.lookup k with
        | some v => (.ok { Typ := "GET", Key := k, Value := v }, e)
        | none => (.error .ErrKeyNotFound, e)) ∨
    (∃ k, parseCommand unicode query = .ok { Typ := "DEL", Key := k, Value := "" } ∧
      k ≠ "" ∧ (db unicode).HandleQuery e query =
        (.ok { Typ := "DEL", Key := k, Value := "" }, { store := e.store.erase k })) := by
  rcases hp : parseCommand unicode query with err | cmd
  · exact Or.inl ⟨err, rfl, parseCommand_error_kinds unicode query err hp,
      HandleQuery_parse_error unicode e query err hp⟩
  · rcases (parseCommand_ok_iff unicode query cmd).mp hp with
      ⟨k, v, _, hk, _, rfl⟩ | ⟨k, _, hk, rfl⟩ | ⟨k, _, hk, rfl⟩
    · exact Or.inr (Or.inl ⟨k, v, rfl, hk.1, HandleQuery_SET unicode e query k v hp hk.1⟩)
    · exact Or.inr (Or.inr (Or.inl
        ⟨k, rfl, hk.1, HandleQuery_GET unicode e query k hp hk.1⟩))
    · exact Or.inr (Or.inr (Or.inr
        ⟨k, rfl, hk.1, HandleQuery_DEL unicode e query k hp hk.1⟩))

/-- C11. Dispatcher GET: for every store and every valid key `k`, the query
`"GET " ++ k` returns the command of kind `GET` with key `k` and the value stored
under `k` when `k` is present, and fails with `ErrKeyNotFound` (no command) when `k`
is absent; in both cases the store is unchanged. -/
theorem dispatcher_GET (unicode : Unicode)
    (hL : ∀ r, unicode.IsLetter r = true → isSpace r = false)
    (hD : ∀ r, unicode.IsDigit r = true → isSpace r = false)
    (e : MemoryEngine) (k : String) (hk : allowedToken unicode k) :
    (∀ v, e.store.lookup k = some v →
      ((db unicode).HandleQuery e ("GET " ++ k)).1 =
        .ok { Typ := "GET", Key := k, Value := v }) ∧
    (k ∉ e.store →
      ((db unicode).HandleQuery e ("GET " ++ k)).1 = .error .ErrKeyNotFound) ∧
    ((db unicode).HandleQuery e ("GET " ++ k)).2 = e := by
  have hsk := allowedToken_nonspace unicode hL hD k hk
  have hget : parseCommand unicode ("GET " ++ k) =
      .ok { Typ := "GET", Key := k, Value := "" } :=
    (parseCommand_ok_iff unicode _ _).mpr
      (Or.inr (Or.inl ⟨k, Fields_GET k hk.1 hsk, hk, rfl⟩))
  rw [HandleQuery_GET unicode e _ k hget hk.1]
  refine ⟨?_, ?_, ?_⟩
  · intro v hv
    rw [hv]
  · intro hab
    rw [Finmap.lookup_eq_none.mpr hab]
  · cases e.store.lookup k <;> rfl

theorem dispatcher_GET_witness :
    ((db asciiTables).HandleQuery (NewMemoryEngine.Set "alpha" "123") "GET alpha") =
      (.ok { Typ := "GET", Key := "alpha", Value := "123" },
        NewMemoryEngine.Set "alpha" "123") ∧
    ((db asciiTables).HandleQuery (NewMemoryEngine.Set "alpha" "123") "GET missing").1 =
      .error .ErrKeyNotFound :=
  ⟨Prod.ext
    ((dispatcher_GET asciiTables asciiTables_letter asciiTables_digit
      (NewMemoryEngine.Set "alpha" "123") "alpha" (by decide)).1 "123" (by decide))
    (dispatcher_GET asciiTables asciiTables_letter asciiTables_digit
      (NewMemoryEngine.Set "alpha" "123") "alpha" (by decide)).2.2,
   (dispatcher_GET asciiTables asciiTables_letter asciiTables_digit
      (NewMemoryEngine.Set "alpha" "123") "missing" (by decide)).2.1 (by decide)⟩

/-- C12. Dispatcher echo for SET and DEL: for every store and every input that the
parser accepts as a `SET` or `DEL` command, `HandleQuery` does not fail and returns
exactly the command the parser produced; after a `SET` the store maps the key to the
value, after a `DEL` the key is absent from the store. -/
theorem dispatcher_echo (unicode : Unicode) (e : MemoryEngine) (query : String)
    (cmd : Command) (hp : parseCommand unicode query = .ok cmd)
    (hT : cmd.Typ = "SET" ∨ cmd.Typ = "DEL") :
    ((db unicode).HandleQuery e query).1 = .ok cmd ∧
    (cmd.Typ = "SET" →
      ((db unicode).HandleQuery e query).2.store.lookup cmd.Key = some cmd.Value) ∧
    (cmd.Typ = "DEL" → cmd.Key ∉ ((db unicode).HandleQuery e query).2.store) := by
  rcases (parseCommand_ok_iff unicode query cmd).mp hp with
    ⟨k, v, _, hk, _, rfl⟩ | ⟨k, _, hk, rfl⟩ | ⟨k, _, hk, rfl⟩
  · rw [HandleQuery_SET unicode e query k v hp hk.1]
    exact ⟨rfl, fun _ => Finmap.lookup_insert _,
      fun h => absurd h (show ¬ ("SET" = "DEL") by decide)⟩
  · rcases hT with h | h
    · exact absurd h (show ¬ ("GET" = "SET") by decide)
    · exact absurd h (show ¬ ("GET" = "DEL") by decide)
  · rw [HandleQuery_DEL unicode e query k hp hk.1]
    exact ⟨rfl, fun h => absurd h (show ¬ ("DEL" = "SET") by decide),
      fun _ => Finmap.not_mem_erase_self⟩

theorem dispatcher_echo_witness :
    ((db asciiTables).HandleQuery NewMemoryEngine "SET a b").1 =
      .ok { Typ := "SET", Key := "a", Value := "b" } ∧
    ((db asciiTables).HandleQuery (NewMemoryEngine.Set "a" "b") "DEL a").1 =
      .ok { Typ := "DEL", Key := "a", Value := "" } :=
  ⟨(dispatcher_echo asciiTables NewMemoryEngine "SET a b"
      { Typ := "SET", Key := "a", Value := "b" } (by decide) (by decide)).1,
   (dispatcher_echo asciiTables (NewMemoryEngine.Set "a" "b") "DEL a"
      { Typ := "DEL", Key := "a", Value := "" } (by decide) (by decide)).1⟩

/-- C14. Atomicity on failure: for every store and every query, when `HandleQuery`
(on the parser, the storage layer and the memory engine of `main`) returns an error,
the store after the call equals the store before it. -/
theorem dispatcher_failure_atomic (unicode : Unicode) (e : MemoryEngine) (query : String)
    (err : Error) (h : ((db unicode).HandleQuery e query).1 = .error err) :
    ((db unicode).HandleQuery e query).2 = e := by
  rcases HandleQuery_cases unicode e query with
    ⟨err1, _, _, hq⟩ | ⟨k, v, _, _, hq⟩ | ⟨k, _, _, hq⟩ | ⟨k, _, _, hq⟩
  · rw [hq]
  · rw [hq] at h
    cases h
  · rw [hq]
    cases e.store.lookup k <;> rfl
  · rw [hq] at h
    cases h

theorem dispatcher_failure_atomic_witness :
    ((db asciiTables).HandleQuery (NewMemoryEngine.Set "a" "b") "GET missing").2 =
      NewMemoryEngine.Set "a" "b" ∧
    ((db asciiTables).HandleQuery (NewMemoryEngine.Set "a" "b") "SET a@ c").2 =
      NewMemoryEngine.Set "a" "b" :=
  ⟨dispatcher_failure_atomic asciiTables (NewMemoryEngine.Set "a" "b") "GET missing"
      .ErrKeyNotFound (by decide),
   dispatcher_failure_atomic asciiTables (NewMemoryEngine.Set "a" "b") "SET a@ c"
      .ErrInvalidSyntax (by decide)⟩

/-- C16. Closed outcome set of the pipeline: for every store and every query,
`HandleQuery` on the components of `main` either succeeds with a command whose kind
is `SET`, `GET` or `DEL` and whose key is non-empty, or fails with `ErrInvalidCommand`,
`ErrInvalidSyntax` or `ErrKeyNotFound`. It never fails with `ErrEmptyKey`; every
command the parser returns has one of the three kinds and a non-empty key, so the
storage layer is never called with the empty key and the unknown-kind branch of the
dispatcher is not taken: `ErrInvalidCommand` comes out only when the parser itself
returned it. -/
theorem pipeline_outcomes (unicode : Unicode) (e : MemoryEngine) (query : String) :
    ((∃ cmd, ((db unicode).HandleQuery e query).1 = .ok cmd ∧
        (cmd.Typ = "SET" ∨ cmd.Typ = "GET" ∨ cmd.Typ = "DEL") ∧ cmd.Key ≠ "") ∨
      ((db unicode).HandleQuery e query).1 = .error .ErrInvalidCommand ∨
      ((db unicode).HandleQuery e query).1 = .error .ErrInvalidSyntax ∨
      ((db unicode).HandleQuery e query).1 = .error .ErrKeyNotFound) ∧
    ((db unicode).HandleQuery e query).1 ≠ .error .ErrEmptyKey ∧
    (∀ cmd, parseCommand unicode query = .ok cmd →
      (cmd.Typ = "SET" ∨ cmd.Typ = "GET" ∨ cmd.Typ = "DEL") ∧ cmd.Key ≠ "") ∧
    (((db unicode).HandleQuery e query).1 = .error .ErrInvalidCommand →
      parseCommand unicode query = .error .ErrInvalidCommand) := by
  refine ⟨?_, ?_, ?_, ?_⟩
  · rcases HandleQuery_cases unicode e query with
      ⟨err1, _, hk, hq⟩ | ⟨k, v, _, hk, hq⟩ | ⟨k, _, hk, hq⟩ | ⟨k, _, hk, hq⟩
    · rw [hq]
      rcases hk with rfl | rfl
      · exact Or.inr (Or.inl rfl)
      · exact Or.inr (Or.inr (Or.inl rfl))
    · rw [hq]
      exact Or.inl ⟨_, rfl, Or.inl rfl, hk⟩
    · rw [hq]
      cases e.store.lookup k with
      | none => exact Or.inr (Or.inr (Or.inr rfl))
      | some v => exact Or.inl ⟨_, rfl, Or.inr (Or.inl rfl), hk⟩
    · rw [hq]
      exact Or.inl ⟨_, rfl, Or.inr (Or.inr rfl), hk⟩
  · rcases HandleQuery_cases unicode e query with
      ⟨err1, _, hk, hq⟩ | ⟨k, v, _, hk, hq⟩ | ⟨k, _, hk, hq⟩ | ⟨k, _, hk, hq⟩
    · rw [hq]
      rcases hk with rfl | rfl <;> exact fun h => nomatch h
    · rw [hq]
      exact fun h => nomatch h
    · rw [hq]
      cases e.store.lookup k <;> exact fun h => nomatch h
    · rw [hq]
      exact fun h => nomatch h
  · intro cmd hp
    obtain ⟨hk, hs | hs | hs⟩ := parseCommand_ok_shape unicode query cmd hp
    · exact ⟨Or.inl (congrArg Command.Typ hs), hk.1⟩
    · exact ⟨Or.inr (Or.inl (congrArg Command.Typ hs)), hk.1⟩
    · exact ⟨Or.inr (Or.inr (congrArg Command.Typ hs)), hk.1⟩
  · intro h
    rcases HandleQuery_cases unicode e query with
      ⟨err1, hp, _, hq⟩ | ⟨k, v, _, _, hq⟩ | ⟨k, _, _, hq⟩ | ⟨k, _, _, hq⟩
    · rw [hq] at h
      rw [hp]
      exact h
    · rw [hq] at h
      cases h
    · rw [hq] at h
      cases hl : e.store.lookup k <;> rw [hl] at h <;> cases h
    · rw [hq] at h
      cases h

/-- C13. Errors are propagated unchanged, for every compute layer and every storage
layer: when the compute layer returns the error `e`, `HandleQuery` returns exactly `e`
with the state of the storage untouched, and a storage layer that records its calls
has received none; when the storage operation selected by the kind of the command
returns the error `e`, `HandleQuery` returns exactly `e`. In both cases the result is
an error, so no command is returned. -/
theorem dispatcher_errors_propagated {σ : Type} (compute : ComputeLayer)
    (storage : StorageLayer σ) (s : σ) (query : String) :
    (∀ e, compute.ProcessCommand query = .error e →
      (database_New compute storage).HandleQuery s query = (.error e, s) ∧
      ∀ calls, (database_New compute (recording storage)).HandleQuery (s, calls) query =
        (.error e, (s, calls))) ∧
    (∀ cmd e, compute.ProcessCommand query = .ok cmd →
      (cmd.Typ = "SET" → (storage.Set s cmd.Key cmd.Value).1 = .error e →
        ((database_New compute storage).HandleQuery s query).1 = .error e) ∧
      (cmd.Typ = "GET" → (storage.Get s cmd.Key).1 = .error e →
        ((database_New compute storage).HandleQuery s query).1 = .error e) ∧
      (cmd.Typ = "DEL" → (storage.Delete s cmd.Key).1 = .error e →
        ((database_New compute storage).HandleQuery s query).1 = .error e)) := by
  refine ⟨?_, ?_⟩
  · intro e he
    refine ⟨?_, fun calls => ?_⟩ <;>
      simp only [Database.HandleQuery, database_New, he]
  · intro cmd e hc
    refine ⟨?_, ?_, ?_⟩
    · intro hT hS
      rcases hr : storage.Set s cmd.Key cmd.Value with ⟨r, s1⟩
      rw [hr] at hS
      simp only at hS
      subst hS
      simp only [Database.HandleQuery, database_New, hc, hT, if_true, hr]
    · intro hT hS
      rcases hr : storage.Get s cmd.Key with ⟨r, s1⟩
      rw [hr] at hS
      simp only at hS
      subst hS
      simp only [Database.HandleQuery, database_New, hc, hT, String.reduceEq, if_false,
        if_true, hr]
    · intro hT hS
      rcases hr : storage.Delete s cmd.Key with ⟨r, s1⟩
      rw [hr] at hS
      simp only at hS
      subst hS
      simp only [Database.HandleQuery, database_New, hc, hT, String.reduceEq, if_false,
        if_true, hr]

/-- The record of `recording` does see the calls the dispatcher makes. -/
theorem recording_sees_calls :
    ((database_New (parser_New asciiTables) (recording storageLayer)).HandleQuery
      (NewMemoryEngine, []) "GET a").2.2 = [StorageCall.Get "a"] ∧
    ((database_New (parser_New asciiTables) (recording storageLayer)).HandleQuery
      (NewMemoryEngine, []) "get a").2.2 = [] := by
  decide

/-! ## The parser sees only the tokens -/

theorem fieldsLoop_append_space (a b : List Char) (sp : Char) (hsp : isSpace sp = true)
    (cur : List Char) :
    fieldsLoop cur (a ++ sp :: b) = fieldsLoop cur a ++ fieldsLoop [] b := by
  induction a generalizing cur with
  | nil =>
    cases cur <;> simp [fieldsLoop, hsp]
  | cons r a ih =>
    rw [List.cons_append, fieldsLoop, fieldsLoop]
    by_cases hr : isSpace r = true
    · rw [if_pos hr, if_pos hr, ih]
      cases cur <;> simp
    · rw [if_neg hr, if_neg hr, ih]

theorem fieldsLoop_leading_space (a : List Char) (sp : Char) (hsp : isSpace sp = true) :
    fieldsLoop [] (sp :: a) = fieldsLoop [] a := by
  rw [fieldsLoop, if_pos hsp]
  rfl

theorem fieldsLoop_nil_nil : fieldsLoop [] [] = [] := rfl

theorem Fields_which_space (a b : List Char) (s1 s2 : Char) (h1 : isSpace s1 = true)
    (h2 : isSpace s2 = true) :
    Fields (String.mk (a ++ s1 :: b)) = Fields (String.mk (a ++ s2 :: b)) := by
  simp only [Fields, fieldsLoop_append_space a b s1 h1, fieldsLoop_append_space a b s2 h2]

theorem Fields_repeated_space (a b : List Char) (s1 s2 : Char) (h1 : isSpace s1 = true)
    (h2 : isSpace s2 = true) :
    Fields (String.mk (a ++ s1 :: s2 :: b)) = Fields (String.mk (a ++ s1 :: b)) := by
  simp only [Fields, fieldsLoop_append_space a _ s1 h1, fieldsLoop_leading_space b s2 h2]

theorem Fields_leading_space (a : List Char) (sp : Char) (hsp : isSpace sp = true) :
    Fields (String.mk (sp :: a)) = Fields (String.mk a) := by
  simp only [Fields, fieldsLoop_leading_space a sp hsp]

theorem Fields_trailing_space (a : List Char) (sp : Char) (hsp : isSpace sp = true) :
    Fields (String.mk (a ++ [sp])) = Fields (String.mk a) := by
  simp only [Fields, fieldsLoop_append_space a [] sp hsp, fieldsLoop_nil_nil,
    List.append_nil]

theorem parseCommand_congr (unicode : Unicode) (i1 i2 : String)
    (h : Fields i1 = Fields i2) : parseCommand unicode i1 = parseCommand unicode i2 := by
  rw [parseCommand_of_Fields, parseCommand_of_Fields, h]

theorem quote_not_allowed (unicode : Unicode)
    (hq1 : unicode.IsLetter '\x22' = false) (hq2 : unicode.IsDigit '\x22' = false)
    (t : String) (ht : '\x22' ∈ t.data) : ¬ allowedToken unicode t := by
  intro h
  rcases h.2 _ ht with h1 | h1 | h1
  · rw [hq1] at h1
    cases h1
  · rw [hq2] at h1
    cases h1
  · revert h1
    decide

/-- C20. The result of the parser depends only on the sequence of
whitespace-separated tokens: two inputs with the same token sequence produce the same
command or the same error, and this covers inputs that differ in which whitespace
character separates two tokens, in repeated whitespace, and in leading or trailing
whitespace. Tokens keep their double quotes (no double quote being a letter or a digit
of the Unicode tables), so an input with a double quote in an argument token is never
accepted: with `SET`, `GET` or `DEL` as first token it fails with `ErrInvalidSyntax`,
as the input `GET "a"` does. -/
theorem parser_depends_on_tokens (unicode : Unicode)
    (hq1 : unicode.IsLetter '\x22' = false) (hq2 : unicode.IsDigit '\x22' = false) :
    (∀ i1 i2, Fields i1 = Fields i2 →
      parseCommand unicode i1 = parseCommand unicode i2) ∧
    (∀ a b s1 s2, isSpace s1 = true → isSpace s2 = true →
      parseCommand unicode (String.mk (a ++ s1 :: b)) =
        parseCommand unicode (String.mk (a ++ s2 :: b))) ∧
    (∀ a b s1 s2, isSpace s1 = true → isSpace s2 = true →
      parseCommand unicode (String.mk (a ++ s1 :: s2 :: b)) =
        parseCommand unicode (String.mk (a ++ s1 :: b))) ∧
    (∀ a sp, isSpace sp = true →
      parseCommand unicode (String.mk (sp :: a)) = parseCommand unicode (String.mk a)) ∧
    (∀ a sp, isSpace sp = true →
      parseCommand unicode (String.mk (a ++ [sp])) = parseCommand unicode (String.mk a)) ∧
    (∀ input, (∃ t ∈ (Fields input).tail, '\x22' ∈ t.data) →
      (∀ cmd, parseCommand unicode input ≠ .ok cmd) ∧
      ((Fields input).head? = some "SET" ∨ (Fields input).head? = some "GET" ∨
        (Fields input).head? = some "DEL" →
        parseCommand unicode input = .error .ErrInvalidSyntax)) ∧
    parseCommand unicode "GET \x22a\x22" = .error .ErrInvalidSyntax := by
  have hno : ∀ input, (∃ t ∈ (Fields input).tail, '\x22' ∈ t.data) →
      ∀ cmd, parseCommand unicode input ≠ .ok cmd := by
    rintro input ⟨t, ht, hq⟩ cmd hp
    have hbad := quote_not_allowed unicode hq1 hq2 t hq
    rcases (parseCommand_ok_iff unicode input cmd).mp hp with
      ⟨k, v, hF, hk, hv, _⟩ | ⟨k, hF, hk, _⟩ | ⟨k, hF, hk, _⟩ <;>
      rw [hF] at ht <;>
      simp only [List.tail_cons, List.mem_cons, List.mem_singleton, List.mem_nil_iff,
        or_false] at ht
    · rcases ht with rfl | rfl
      · exact hbad hk
      · exact hbad hv
    · exact hbad (ht ▸ hk)
    · exact hbad (ht ▸ hk)
  have hsyn : ∀ input, (∃ t ∈ (Fields input).tail, '\x22' ∈ t.data) →
      ((Fields input).head? = some "SET" ∨ (Fields input).head? = some "GET" ∨
        (Fields input).head? = some "DEL") →
      parseCommand unicode input = .error .ErrInvalidSyntax := by
    intro input hq hverb
    rcases hp : parseCommand unicode input with err | cmd
    · rcases parseCommand_error_kinds unicode input err hp with rfl | rfl
      · exfalso
        rw [parseCommand_of_Fields] at hp
        generalize Fields input = words at hverb hp
        rcases words with _ | ⟨w, rest⟩
        · simp at hverb
        · simp only [List.head?_cons, Option.some.injEq] at hverb
          rcases hverb with rfl | rfl | rfl <;>
            simp only [String.reduceEq, if_true, if_false] at hp <;>
            split at hp <;>
            first
              | cases hp
              | exact absurd ((validateArguments_error_iff _ _ _).mp hp).1 (by decide)
      · rfl
    · exact absurd hp (hno input hq cmd)
  refine ⟨parseCommand_congr unicode, ?_, ?_, ?_, ?_, fun input h => ⟨hno input h, hsyn input h⟩,
    ?_⟩
  · intro a b s1 s2 h1 h2
    exact parseCommand_congr unicode _ _ (Fields_which_space a b s1 s2 h1 h2)
  · intro a b s1 s2 h1 h2
    exact parseCommand_congr unicode _ _ (Fields_repeated_space a b s1 s2 h1 h2)
  · intro a sp h
    exact parseCommand_congr unicode _ _ (Fields_leading_space a sp h)
  · intro a sp h
    exact parseCommand_congr unicode _ _ (Fields_trailing_space a sp h)
  · exact hsyn _ ⟨"\x22a\x22", by decide, by decide⟩ (by decide)

theorem parser_depends_on_tokens_witness :
    parseCommand asciiTables "  SET\tkey   value\n" = parseCommand asciiTables "SET key value" ∧
    parseCommand asciiTables "GET \x22a\x22" = .error .ErrInvalidSyntax :=
  ⟨(parser_depends_on_tokens asciiTables (by decide) (by decide)).1 _ _ (by decide),
    (parser_depends_on_tokens asciiTables (by decide) (by decide)).2.2.2.2.2.2⟩

/-! ## `ParseCommandType` and `splitWords` -/

theorem fieldsLoop_first_open (l cur : List Char) (w : String) (rest : List String)
    (hcur : cur ≠ []) (h : fieldsLoop cur l = w :: rest) :
    ∃ pre tl, l = pre ++ tl ∧ w.data = cur.reverse ++ pre ∧
      (tl = [] ∨ ∃ sp tl1, tl = sp :: tl1 ∧ isSpace sp = true) := by
  induction l generalizing cur with
  | nil =>
    rw [fieldsLoop, if_neg (by simpa using hcur)] at h
    refine ⟨[], [], rfl, ?_, Or.inl rfl⟩
    rw [← (List.cons.inj h).1]
    simp
  | cons r l ih =>
    rw [fieldsLoop] at h
    by_cases hr : isSpace r = true
    · rw [if_pos hr, if_neg (by simpa using hcur)] at h
      refine ⟨[], r :: l, rfl, ?_, Or.inr ⟨r, l, rfl, hr⟩⟩
      rw [← (List.cons.inj h).1]
      simp
    · rw [if_neg hr] at h
      obtain ⟨pre, tl, hl, hw, htl⟩ := ih (r :: cur) (List.cons_ne_nil r cur) h
      refine ⟨r :: pre, tl, by rw [hl]; rfl, ?_, htl⟩
      rw [hw]
      simp

theorem fieldsLoop_first (l : List Char) (w : String) (rest : List String)
    (h : fieldsLoop [] l = w :: rest) :
    ∃ ws tl, l = ws ++ w.data ++ tl ∧ (∀ c ∈ ws, isSpace c = true) ∧
      (tl = [] ∨ ∃ sp tl1, tl = sp :: tl1 ∧ isSpace sp = true) := by
  induction l with
  | nil => simp [fieldsLoop] at h
  | cons r l ih =>
    rw [fieldsLoop] at h
    by_cases hr : isSpace r = true
    · rw [if_pos hr] at h
      obtain ⟨ws, tl, hl, hws, htl⟩ := ih h
      refine ⟨r :: ws, tl, by rw [hl]; rfl, ?_, htl⟩
      intro c hc
      rcases List.mem_cons.mp hc with rfl | hc
      · exact hr
      · exact hws c hc
    · rw [if_neg hr] at h
      obtain ⟨pre, tl, hl, hw, htl⟩ :=
        fieldsLoop_first_open l [r] w rest (List.cons_ne_nil r []) h
      refine ⟨[], tl, ?_, by simp, htl⟩
      rw [hw, hl]
      simp

theorem splitWordsLoop_head (bytes : List UInt8) (w0 : String) (words : List String)
    (currentWord : String) (inQuotes : Bool) :
    (splitWordsLoop (w0 :: words) currentWord inQuotes bytes).head? = some w0 := by
  induction bytes generalizing words currentWord inQuotes with
  | nil =>
    rw [splitWordsLoop]
    split <;> rfl
  | cons b bytes ih =>
    rw [splitWordsLoop]
    split
    · exact ih _ _ _
    · split
      · split
        · exact ih _ _ _
        · exact ih _ _ _
      · exact ih _ _ _

theorem splitWordsLoop_leading_spaces (ws : List Char) (hws : ∀ c ∈ ws, c = ' ')
    (words : List String) (bytes : List UInt8) :
    splitWordsLoop words "" false (ws.flatMap String.utf8EncodeChar ++ bytes) =
      splitWordsLoop words "" false bytes := by
  induction ws with
  | nil => rfl
  | cons c ws ih =>
    have hc : c = ' ' := hws c (List.mem_cons_self c ws)
    subst hc
    rw [List.flatMap_cons, List.append_assoc,
      show String.utf8EncodeChar ' ' = [0x20] by decide, List.singleton_append,
      splitWordsLoop]
    simp only [show ¬ ((0x20 : UInt8) = 0x22) by decide, if_false, true_and, if_true,
      ne_eq, not_true_eq_false]
    exact ih (fun x hx => hws x (List.mem_cons_of_mem _ hx))

theorem ParseCommandType_of_head (input verb : String)
    (hverb : verb = "SET" ∨ verb = "GET" ∨ verb = "DEL")
    (h : (splitWords input).head? = some verb) : ParseCommandType input = verb := by
  unfold ParseCommandType
  generalize splitWords input = words at h
  rcases words with _ | ⟨w, rest⟩
  · simp at h
  · simp only [List.head?_cons, Option.some.injEq] at h
    subst h
    rcases hverb with rfl | rfl | rfl <;> simp [TypeSet, TypeGet, TypeDel]

theorem splitWords_head_of_Fields (input verb : String) (rest : List String)
    (hverb : verb = "SET" ∨ verb = "GET" ∨ verb = "DEL")
    (hsp : ∀ c ∈ input.data, isSpace c = true → c = ' ')
    (hF : Fields input = verb :: rest) : (splitWords input).head? = some verb := by
  obtain ⟨ws, tl, hl, hws, htl⟩ := fieldsLoop_first input.data verb rest hF
  have hmem : ∀ c, c ∈ ws ∨ c ∈ tl → c ∈ input.data := by
    intro c hc
    rw [hl]
    simp only [List.mem_append]
    tauto
  have hws1 : ∀ c ∈ ws, c = ' ' := fun c hc => hsp c (hmem c (Or.inl hc)) (hws c hc)
  have hbytes : input.toUTF8.data.toList =
      ws.flatMap String.utf8EncodeChar ++
        (verb.data.flatMap String.utf8EncodeChar ++ tl.flatMap String.utf8EncodeChar) := by
    show input.data.flatMap String.utf8EncodeChar = _
    rw [hl, List.flatMap_append, List.flatMap_append, List.append_assoc]
  rw [splitWords, hbytes, splitWordsLoop_leading_spaces ws hws1]
  have hstep : splitWordsLoop [] "" false
      (verb.data.flatMap String.utf8EncodeChar ++ tl.flatMap String.utf8EncodeChar) =
      splitWordsLoop [] verb false (tl.flatMap String.utf8EncodeChar) := by
    rcases hverb with rfl | rfl | rfl <;> rfl
  rw [hstep]
  rcases htl with rfl | ⟨sp, tl1, rfl, hsp1⟩
  · rcases hverb with rfl | rfl | rfl <;> rfl
  · have hsp2 : sp = ' ' := hsp sp (hmem sp (Or.inr (List.mem_cons_self sp tl1))) hsp1
    subst hsp2
    have hnext : splitWordsLoop [] verb false
        ((' ' :: tl1).flatMap String.utf8EncodeChar) =
        splitWordsLoop [verb] "" false (tl1.flatMap String.utf8EncodeChar) := by
      rcases hverb with rfl | rfl | rfl <;> rfl
    rw [hnext]
    exact splitWordsLoop_head _ verb [] "" false

theorem ParseCommandType_range (input : String) :
    ParseCommandType input = "SET" ∨ ParseCommandType input = "GET" ∨
      ParseCommandType input = "DEL" ∨ ParseCommandType input = "" := by
  unfold ParseCommandType
  dsimp only
  split
  · exact Or.inr (Or.inr (Or.inr rfl))
  · split
    · exact Or.inl rfl
    · split
      · exact Or.inr (Or.inl rfl)
      · split
        · exact Or.inr (Or.inr (Or.inl rfl))
        · exact Or.inr (Or.inr (Or.inr rfl))

/-- C21, as stated, fails: on the input `GET`, tab, `-` the parser succeeds with kind
`GET` whatever the Unicode tables are, and `ParseCommandType` returns the empty
string. -/
theorem ParseCommandType_tab_counterexample :
    (∀ unicode : Unicode, parseCommand unicode "GET\t-" =
      .ok { Typ := "GET", Key := "-", Value := "" }) ∧
    ParseCommandType "GET\t-" = "" ∧ ParseCommandType "GET\t-" ≠ "GET" := by
  refine ⟨fun unicode => ?_, by decide, by decide⟩
  refine (parseCommand_ok_iff unicode _ _).mpr (Or.inr (Or.inl ⟨"-", by decide, ?_, rfl⟩))
  refine ⟨by decide, ?_⟩
  intro r hr
  exact Or.inr (Or.inr (by
    rw [show ("-" : String).data = ['-'] from rfl, List.mem_singleton] at hr
    subst hr
    decide))

/-! ## `splitWords`: what holds on ASCII input, and what the byte conversion breaks -/

theorem ascii_utf8EncodeChar (c : Char) (h : c.toNat < 128) :
    String.utf8EncodeChar c = [c.val.toUInt8] := by
  have hle : c.val ≤ 0x7f := by
    show c.val.toNat ≤ 127
    exact Nat.lt_succ_iff.mp h
  simp only [String.utf8EncodeChar, if_pos hle]

theorem ascii_byte_toNat (c : Char) (h : c.toNat < 128) :
    c.val.toUInt8.toNat = c.toNat := by
  show c.val.toNat % 256 = c.val.toNat
  exact Nat.mod_eq_of_lt (Nat.lt_trans h (by decide))

theorem ascii_byte_eq_iff (c d : Char) (h : c.toNat < 128) (hd : d.toNat < 128) :
    c.val.toUInt8 = d.val.toUInt8 ↔ c = d := by
  constructor
  · intro hb
    have hn : c.toNat = d.toNat := by
      rw [← ascii_byte_toNat c h, ← ascii_byte_toNat d hd, hb]
    rw [← Char.ofNat_toNat c, ← Char.ofNat_toNat d, hn]
  · intro hcd
    rw [hcd]

theorem ascii_byte_quote (c : Char) (h : c.toNat < 128) :
    c.val.toUInt8 = 0x22 ↔ c = '\x22' :=
  ascii_byte_eq_iff c '\x22' h (by decide)

theorem ascii_byte_space (c : Char) (h : c.toNat < 128) :
    c.val.toUInt8 = 0x20 ↔ c = ' ' :=
  ascii_byte_eq_iff c ' ' h (by decide)

theorem ascii_string_of_byte (c : Char) (h : c.toNat < 128) :
    Char.ofNat c.val.toUInt8.toNat = c := by
  rw [ascii_byte_toNat c h, Char.ofNat_toNat]

theorem mk_reverse_push (acc : List Char) (c : Char) :
    String.mk acc.reverse ++ String.singleton c = String.mk (c :: acc).reverse := by
  apply String.ext
  simp [String.data_append, String.singleton]

theorem mk_ne_empty_iff (l : List Char) : String.mk l ≠ "" ↔ l ≠ [] := by
  constructor
  · intro h hl
    exact h (by rw [hl])
  · intro h hs
    exact h (congrArg String.data hs)

/-- Outside quotes, on ASCII text without a double quote, the loop of `splitWords`
follows the scan of `List.splitOnP` at the space and drops the empty pieces. -/
theorem splitWordsLoop_unquoted (l : List Char) (hascii : ∀ c ∈ l, c.toNat < 128)
    (hq : ∀ c ∈ l, c ≠ '\x22') (words : List String) (acc : List Char) :
    splitWordsLoop words (String.mk acc.reverse) false (l.flatMap String.utf8EncodeChar) =
      words ++ ((List.splitOnP.go (fun c => c == ' ') l acc).filter
        (fun r => decide (r ≠ []))).map String.mk := by
  induction l generalizing words acc with
  | nil =>
    simp only [List.flatMap_nil, splitWordsLoop, List.splitOnP.go]
    by_cases hacc : acc.reverse = []
    · have h1 : ¬ (String.mk acc.reverse ≠ "") := fun hh => (mk_ne_empty_iff _).mp hh hacc
      rw [if_neg h1]
      simp [hacc]
    · rw [if_pos ((mk_ne_empty_iff _).mpr hacc)]
      simp [hacc]
  | cons c l ih =>
    have hc : c.toNat < 128 := hascii c (List.mem_cons_self c l)
    have hcq : c ≠ '\x22' := hq c (List.mem_cons_self c l)
    have hl1 : ∀ x ∈ l, x.toNat < 128 := fun x hx => hascii x (List.mem_cons_of_mem c hx)
    have hl2 : ∀ x ∈ l, x ≠ '\x22' := fun x hx => hq x (List.mem_cons_of_mem c hx)
    rw [List.flatMap_cons, ascii_utf8EncodeChar c hc, List.singleton_append, splitWordsLoop,
      if_neg (fun hb => hcq ((ascii_byte_quote c hc).mp hb)), List.splitOnP.go]
    by_cases hsp : c = ' '
    · rw [if_pos ⟨(ascii_byte_space c hc).mpr hsp, rfl⟩]
      have hp : (c == ' ') = true := by simp [hsp]
      simp only [hp, if_true]
      by_cases hacc : acc.reverse = []
      · have h1 : ¬ (String.mk acc.reverse ≠ "") :=
          fun hh => (mk_ne_empty_iff _).mp hh hacc
        rw [if_neg h1]
        have hacc2 : acc = [] := by simpa using hacc
        subst hacc2
        rw [ih hl1 hl2 words []]
        simp
      · rw [if_pos ((mk_ne_empty_iff _).mpr hacc)]
        have h0 := ih hl1 hl2 (words ++ [String.mk acc.reverse]) []
        rw [List.reverse_nil] at h0
        rw [show ("" : String) = String.mk [] from rfl, h0]
        simp [hacc]
    · rw [if_neg (fun hb => hsp ((ascii_byte_space c hc).mp hb.1))]
      have hp : (c == ' ') = false := by simp [hsp]
      simp only [hp, Bool.false_eq_true, if_false]
      rw [ascii_string_of_byte c hc, mk_reverse_push, ih hl1 hl2 words (c :: acc)]

/-- Inside quotes, ASCII text without a double quote is appended to the current word,
spaces included. -/
theorem splitWordsLoop_quoted (l : List Char) (hascii : ∀ c ∈ l, c.toNat < 128)
    (hq : ∀ c ∈ l, c ≠ '\x22') (words : List String) (acc : List Char)
    (rest : List UInt8) :
    splitWordsLoop words (String.mk acc.reverse) true
        (l.flatMap String.utf8EncodeChar ++ rest) =
      splitWordsLoop words (String.mk (l.reverse ++ acc).reverse) true rest := by
  induction l generalizing acc with
  | nil => rfl
  | cons c l ih =>
    have hc : c.toNat < 128 := hascii c (List.mem_cons_self c l)
    have hcq : c ≠ '\x22' := hq c (List.mem_cons_self c l)
    rw [List.flatMap_cons, ascii_utf8EncodeChar c hc, List.append_assoc,
      List.singleton_append, splitWordsLoop,
      if_neg (fun hb => hcq ((ascii_byte_quote c hc).mp hb)),
      if_neg (fun hb => Bool.noConfusion hb.2), ascii_string_of_byte c hc, mk_reverse_push,
      ih (fun x hx => hascii x (List.mem_cons_of_mem c hx))
        (fun x hx => hq x (List.mem_cons_of_mem c hx)) (c :: acc)]
    simp

theorem splitWordsLoop_no_empty (bytes : List UInt8) (words : List String)
    (currentWord : String) (inQuotes : Bool) (h : "" ∉ words) :
    "" ∉ splitWordsLoop words currentWord inQuotes bytes := by
  induction bytes generalizing words currentWord inQuotes with
  | nil =>
    rw [splitWordsLoop]
    split
    · next hne =>
      simp only [List.mem_append, List.mem_singleton, not_or]
      exact ⟨h, fun he => hne he.symm⟩
    · exact h
  | cons b bytes ih =>
    rw [splitWordsLoop]
    split
    · exact ih _ _ _ h
    · split
      · split
        · next hne =>
          apply ih
          simp only [List.mem_append, List.mem_singleton, not_or]
          exact ⟨h, fun he => hne he.symm⟩
        · exact ih _ _ _ h
      · exact ih _ _ _ h

/-- What holds of `splitWords`. For every input it returns no empty word. For
every ASCII input without a double quote the words are the maximal runs of characters
other than the space, in order. For every non-empty ASCII `s` without a double quote,
`s` wrapped in double quotes gives the single word `s`, spaces included. -/
theorem splitWords_ascii :
    (∀ input : String, "" ∉ splitWords input) ∧
    (∀ input : String, (∀ c ∈ input.data, c.toNat < 128) →
      (∀ c ∈ input.data, c ≠ '\x22') → splitWords input = spaceRuns input) ∧
    (∀ s : String, s ≠ "" → (∀ c ∈ s.data, c.toNat < 128) →
      (∀ c ∈ s.data, c ≠ '\x22') → splitWords ("\x22" ++ s ++ "\x22") = [s]) := by
  refine ⟨fun input => splitWordsLoop_no_empty _ _ _ _ (List.not_mem_nil _), ?_, ?_⟩
  · intro input hascii hq
    have h := splitWordsLoop_unquoted input.data hascii hq [] []
    rw [List.reverse_nil, List.nil_append] at h
    exact h
  · intro s hs hascii hq
    have hbytes : ("\x22" ++ s ++ "\x22").toUTF8.data.toList =
        0x22 :: (s.data.flatMap String.utf8EncodeChar ++ [0x22]) := by
      show ("\x22" ++ s ++ "\x22").data.flatMap String.utf8EncodeChar = _
      simp only [String.data_append, List.flatMap_append]
      rfl
    have h := splitWordsLoop_quoted s.data hascii hq [] [] [0x22]
    rw [List.reverse_nil, List.append_nil, List.reverse_reverse] at h
    rw [splitWords, hbytes, splitWordsLoop]
    simp only [if_true, Bool.not_false]
    rw [show ("" : String) = String.mk [] from rfl, h, splitWordsLoop]
    simp only [if_true, Bool.not_true, splitWordsLoop]
    rw [if_pos hs]
    rfl

/-- C22. On the input `é` (U+00E9, the bytes C3 A9), which has no double quote and no
space, `splitWords` does not return the run `é`: the conversion `string(char)` of each
byte gives the word of the two characters U+00C3 and U+00A9. The same happens to `é`
wrapped in double quotes. -/
theorem splitWords_byte_conversion :
    splitWords "\u00e9" = ["\u00c3\u00a9"] ∧ splitWords "\u00e9" ≠ ["\u00e9"] ∧
    spaceRuns "\u00e9" = ["\u00e9"] ∧
    splitWords "\x22\u00e9\x22" = ["\u00c3\u00a9"] ∧
    splitWords "\x22\u00e9\x22" ≠ ["\u00e9"] := by
  decide

/-! ## `ParseCommandType` against the parser: exactly when they agree -/

theorem isSpace_cases (c : Char) (h : isSpace c = true) :
    c.toNat = 9 ∨ c.toNat = 10 ∨ c.toNat = 11 ∨ c.toNat = 12 ∨ c.toNat = 13 ∨
    c.toNat = 32 ∨ c.toNat = 0x85 ∨ c.toNat = 0xA0 ∨ c.toNat = 0x1680 ∨
    c.toNat = 0x2000 ∨ c.toNat = 0x2001 ∨ c.toNat = 0x2002 ∨ c.toNat = 0x2003 ∨
    c.toNat = 0x2004 ∨ c.toNat = 0x2005 ∨ c.toNat = 0x2006 ∨ c.toNat = 0x2007 ∨
    c.toNat = 0x2008 ∨ c.toNat = 0x2009 ∨ c.toNat = 0x200A ∨ c.toNat = 0x2028 ∨
    c.toNat = 0x2029 ∨ c.toNat = 0x202F ∨ c.toNat = 0x205F ∨ c.toNat = 0x3000 := by
  simp only [isSpace, Bool.or_eq_true, Bool.and_eq_true, decide_eq_true_eq,
    beq_iff_eq] at h
  omega

/-- The first byte of a whitespace character other than the space U+0020 is neither
the quote nor the space, and `string` of it is not an upper-case letter. -/
theorem space_first_byte (c : Char) (hs : isSpace c = true) (hne : c ≠ ' ') :
    ∃ b bs, String.utf8EncodeChar c = b :: bs ∧ b ≠ 0x22 ∧ b ≠ 0x20 ∧
      (Char.ofNat b.toNat).isUpper = false := by
  have key : ∀ n : Nat, c.toNat = n → c = Char.ofNat n := by
    intro n hn
    rw [← Char.ofNat_toNat c, hn]
  rcases isSpace_cases c hs with h | h | h | h | h | h | h | h | h | h | h | h | h | h |
      h | h | h | h | h | h | h | h | h | h | h <;>
    have hc := key _ h <;> subst hc <;>
    first
      | exact absurd rfl hne
      | exact ⟨_, _, rfl, by decide, by decide, by decide⟩

theorem splitWordsLoop_head_not_upper (bytes : List UInt8) (cur : String) (q : Bool)
    (h : ∃ ch ∈ cur.data, ch.isUpper = false) :
    ∃ w, (splitWordsLoop [] cur q bytes).head? = some w ∧
      ∃ ch ∈ w.data, ch.isUpper = false := by
  have hne : ∀ t : String, (∃ ch ∈ t.data, ch.isUpper = false) → t ≠ "" := by
    rintro t ⟨ch, hch, _⟩ ht
    rw [ht] at hch
    exact absurd hch (List.not_mem_nil ch)
  induction bytes generalizing cur q with
  | nil =>
    rw [splitWordsLoop, if_pos (hne cur h)]
    exact ⟨cur, rfl, h⟩
  | cons b bytes ih =>
    rw [splitWordsLoop]
    split
    · exact ih cur _ h
    · split
      · rw [if_pos (hne cur h)]
        exact ⟨cur, splitWordsLoop_head bytes cur [] "" q, h⟩
      · apply ih
        obtain ⟨ch, hch, hup⟩ := h
        refine ⟨ch, ?_, hup⟩
        rw [String.data_append]
        exact List.mem_append_left _ hch

/-- After a whitespace character other than the space U+0020, read outside quotes,
the first word of `splitWords` holds a character that is not an upper-case letter. -/
theorem splitWordsLoop_other_space (cur : String) (sp : Char) (hs : isSpace sp = true)
    (hne : sp ≠ ' ') (rest : List UInt8) :
    ∃ w, (splitWordsLoop [] cur false (String.utf8EncodeChar sp ++ rest)).head? = some w ∧
      ∃ ch ∈ w.data, ch.isUpper = false := by
  obtain ⟨b, bs, hb, hq, hsp, hup⟩ := space_first_byte sp hs hne
  rw [hb, List.cons_append, splitWordsLoop, if_neg hq, if_neg (fun hc => hsp hc.1)]
  apply splitWordsLoop_head_not_upper
  refine ⟨Char.ofNat b.toNat, ?_, hup⟩
  rw [String.data_append]
  exact List.mem_append_right _ (by simp [String.singleton])

theorem splitWordsLoop_leading_other_space (ws : List Char)
    (hws : ∀ c ∈ ws, isSpace c = true) (hbad : ∃ c ∈ ws, c ≠ ' ') (rest : List UInt8) :
    ∃ w, (splitWordsLoop [] "" false
        (ws.flatMap String.utf8EncodeChar ++ rest)).head? = some w ∧
      ∃ ch ∈ w.data, ch.isUpper = false := by
  induction ws with
  | nil =>
    obtain ⟨c, hc, _⟩ := hbad
    exact absurd hc (List.not_mem_nil c)
  | cons c ws ih =>
    rw [List.flatMap_cons, List.append_assoc]
    by_cases hc : c = ' '
    · subst hc
      have h1 := splitWordsLoop_leading_spaces [' '] (by simp) []
        (ws.flatMap String.utf8EncodeChar ++ rest)
      rw [List.flatMap_cons, List.flatMap_nil, List.append_nil] at h1
      rw [h1]
      apply ih (fun x hx => hws x (List.mem_cons_of_mem _ hx))
      obtain ⟨d, hd, hdne⟩ := hbad
      rcases List.mem_cons.mp hd with rfl | hd
      · exact absurd rfl hdne
      · exact ⟨d, hd, hdne⟩
    · exact splitWordsLoop_other_space "" c (hws c (List.mem_cons_self c ws)) hc _

theorem fieldsLoop_leading_spaces (ws rest : List Char) (hws : ∀ c ∈ ws, isSpace c = true) :
    fieldsLoop [] (ws ++ rest) = fieldsLoop [] rest := by
  induction ws with
  | nil => rfl
  | cons c ws ih =>
    rw [List.cons_append, fieldsLoop_leading_space _ c (hws c (List.mem_cons_self c ws))]
    exact ih (fun x hx => hws x (List.mem_cons_of_mem c hx))

theorem ParseCommandType_eq_verb (input verb : String)
    (hverb : verb = "SET" ∨ verb = "GET" ∨ verb = "DEL")
    (h : ParseCommandType input = verb) : (splitWords input).head? = some verb := by
  unfold ParseCommandType at h
  generalize splitWords input = words at h
  rcases words with _ | ⟨w, rest⟩
  · rcases hverb with rfl | rfl | rfl <;> simp at h
  · simp only [List.length_cons, Nat.add_one_ne_zero, if_false, List.getD_cons_zero,
      TypeSet, TypeGet, TypeDel] at h
    simp only [List.head?_cons, Option.some.injEq]
    split at h
    · next h1 => rw [h1, h]
    · split at h
      · next h2 => rw [h2, h]
      · split at h
        · next h3 => rw [h3, h]
        · rcases hverb with rfl | rfl | rfl <;> simp at h

/-- The first word of `splitWords` on spaces, a verb, a space and anything. -/
theorem splitWords_head_of_shape (input verb : String) (n : Nat) (tl : List Char)
    (hverb : verb = "SET" ∨ verb = "GET" ∨ verb = "DEL")
    (hl : input.data = List.replicate n ' ' ++ verb.data ++ ' ' :: tl) :
    (splitWords input).head? = some verb := by
  have hbytes : input.toUTF8.data.toList =
      (List.replicate n ' ').flatMap String.utf8EncodeChar ++
        ((verb.data ++ ' ' :: tl).flatMap String.utf8EncodeChar) := by
    show input.data.flatMap String.utf8EncodeChar = _
    rw [hl, List.append_assoc, List.flatMap_append]
  rw [splitWords, hbytes,
    splitWordsLoop_leading_spaces _ (fun c hc => (List.mem_replicate.mp hc).2)]
  have hstep : splitWordsLoop [] "" false
      ((verb.data ++ ' ' :: tl).flatMap String.utf8EncodeChar) =
      splitWordsLoop [verb] "" false (tl.flatMap String.utf8EncodeChar) := by
    rcases hverb with rfl | rfl | rfl <;> rfl
  rw [hstep]
  exact splitWordsLoop_head _ verb [] "" false

/-- The shape of an input on which `ParseCommandType` finds the first token `verb` of
at least two tokens. -/
theorem shape_of_splitWords_head (input verb k : String) (rest : List String)
    (hverb : verb = "SET" ∨ verb = "GET" ∨ verb = "DEL")
    (hF : Fields input = verb :: k :: rest)
    (hh : (splitWords input).head? = some verb) :
    ∃ n tl, input.data = List.replicate n ' ' ++ verb.data ++ ' ' :: tl := by
  obtain ⟨ws, tl, hl, hws, htl⟩ := fieldsLoop_first input.data verb (k :: rest) hF
  have hupper : ¬ ∃ ch ∈ verb.data, ch.isUpper = false := by
    rcases hverb with rfl | rfl | rfl <;> decide
  have hbytes : input.toUTF8.data.toList =
      ws.flatMap String.utf8EncodeChar ++
        (verb.data.flatMap String.utf8EncodeChar ++ tl.flatMap String.utf8EncodeChar) := by
    show input.data.flatMap String.utf8EncodeChar = _
    rw [hl, List.flatMap_append, List.flatMap_append, List.append_assoc]
  rw [splitWords, hbytes] at hh
  rcases htl with rfl | ⟨sp, tl1, rfl, hsp⟩
  · exfalso
    have h1 : Fields input = [verb] := by
      rw [Fields, hl, List.append_nil, fieldsLoop_leading_spaces ws _ hws]
      rcases hverb with rfl | rfl | rfl <;> rfl
    rw [hF] at h1
    cases h1
  · by_cases hall : ∀ c ∈ ws, c = ' '
    · by_cases hsp1 : sp = ' '
      · subst hsp1
        refine ⟨ws.length, tl1, ?_⟩
        rw [hl, ← List.eq_replicate_iff.mpr ⟨rfl, hall⟩]
      · exfalso
        rw [splitWordsLoop_leading_spaces ws hall] at hh
        have hstep : splitWordsLoop [] "" false
            (verb.data.flatMap String.utf8EncodeChar ++
              (sp :: tl1).flatMap String.utf8EncodeChar) =
            splitWordsLoop [] verb false
              (String.utf8EncodeChar sp ++ tl1.flatMap String.utf8EncodeChar) := by
          rcases hverb with rfl | rfl | rfl <;> rfl
        rw [hstep] at hh
        obtain ⟨w, hw, hbad⟩ := splitWordsLoop_other_space verb sp hsp hsp1
          (tl1.flatMap String.utf8EncodeChar)
        rw [hh] at hw
        rw [Option.some.inj hw] at hupper
        exact hupper hbad
    · exfalso
      have hbad0 : ∃ c ∈ ws, c ≠ ' ' := by
        by_contra hcon
        exact hall (fun c hc => by_contra (fun hne => hcon ⟨c, hc, hne⟩))
      obtain ⟨w, hw, hbad⟩ := splitWordsLoop_leading_other_space ws hws hbad0
        (verb.data.flatMap String.utf8EncodeChar ++
          (sp :: tl1).flatMap String.utf8EncodeChar)
      rw [hh] at hw
      rw [Option.some.inj hw] at hupper
      exact hupper hbad

/-- C21, amended. For every input on which the parser succeeds with a command of kind
`K`: `ParseCommandType` returns `K` if and only if the input is some number of space
characters U+0020 (possibly none), the command word `K`, one space character U+0020
and then any text. So the two agree whenever the command word is preceded only by
spaces U+0020 and directly followed by one, whatever whitespace separates or follows
the later tokens, and they disagree otherwise. And for every input `ParseCommandType`
returns `SET`, `GET`, `DEL` or the empty string. -/
theorem ParseCommandType_agrees_iff :
    (∀ (unicode : Unicode) (input : String) (cmd : Command),
      parseCommand unicode input = .ok cmd →
      (ParseCommandType input = cmd.Typ ↔
        ∃ n tl, input.data = List.replicate n ' ' ++ cmd.Typ.data ++ ' ' :: tl)) ∧
    ∀ input : String, ParseCommandType input = "SET" ∨ ParseCommandType input = "GET" ∨
      ParseCommandType input = "DEL" ∨ ParseCommandType input = "" := by
  refine ⟨?_, ParseCommandType_range⟩
  intro unicode input cmd hp
  have hshape : ∀ verb k rest, (verb = "SET" ∨ verb = "GET" ∨ verb = "DEL") →
      Fields input = verb :: k :: rest →
      (ParseCommandType input = verb ↔
        ∃ n tl, input.data = List.replicate n ' ' ++ verb.data ++ ' ' :: tl) := by
    intro verb k rest hverb hF
    constructor
    · intro h
      exact shape_of_splitWords_head input verb k rest hverb hF
        (ParseCommandType_eq_verb input verb hverb h)
    · rintro ⟨n, tl, hl⟩
      exact ParseCommandType_of_head input verb hverb
        (splitWords_head_of_shape input verb n tl hverb hl)
  rcases (parseCommand_ok_iff unicode input cmd).mp hp with
    ⟨k, v, hF, _, _, rfl⟩ | ⟨k, hF, _, rfl⟩ | ⟨k, hF, _, rfl⟩
  · exact hshape "SET" k [v] (Or.inl rfl) hF
  · exact hshape "GET" k [] (Or.inr (Or.inl rfl)) hF
  · exact hshape "DEL" k [] (Or.inr (Or.inr rfl)) hF

theorem ParseCommandType_agrees_iff_witness :
    ParseCommandType "GET a\t" = "GET" ∧ ParseCommandType "SET k\tv" = "SET" ∧
    ParseCommandType "SET k v\n" = "SET" ∧
    ParseCommandType "  DEL key_1\t " = "DEL" ∧
    ¬ ∃ n tl, ("GET\t-" : String).data = List.replicate n ' ' ++ ("GET" : String).data ++
      ' ' :: tl :=
  ⟨(ParseCommandType_agrees_iff.1 asciiTables "GET a\t"
      { Typ := "GET", Key := "a", Value := "" } (by decide)).mpr ⟨0, ['a', '\t'], rfl⟩,
   (ParseCommandType_agrees_iff.1 asciiTables "SET k\tv"
      { Typ := "SET", Key := "k", Value := "v" } (by decide)).mpr
      ⟨0, ['k', '\t', 'v'], rfl⟩,
   (ParseCommandType_agrees_iff.1 asciiTables "SET k v\n"
      { Typ := "SET", Key := "k", Value := "v" } (by decide)).mpr
      ⟨0, ['k', ' ', 'v', '\n'], rfl⟩,
   (ParseCommandType_agrees_iff.1 asciiTables "  DEL key_1\t "
      { Typ := "DEL", Key := "key_1", Value := "" } (by decide)).mpr
      ⟨2, ['k', 'e', 'y', '_', '1', '\t', ' '], rfl⟩,
   fun h => absurd
     ((ParseCommandType_agrees_iff.1 asciiTables "GET\t-"
        { Typ := "GET", Key := "-", Value := "" } (by decide)).mpr h) (by decide)⟩

end KV
